import Mathlib

/-!
Verification development for the CodeCraft static site generator
(`publish.py` / `codecraft.py`).  Python strings are embedded as `List Char`;
`str.replace` and the `re.sub`-based extractors are embedded as left-to-right,
non-overlapping, non-rescanning scanners (structural recursion on a fuel
argument equal to the input length, so every definition evaluates by `decide`
or `rfl`).  Python dicts keyed by strings are embedded as association lists in
insertion order, matching dict iteration order.
-/

namespace CodeCraft

/-- Python strings are embedded as lists of characters. -/
abbrev Text := List Char

/-- Anchored match: `isPre p l` is true iff `p` is a prefix of `l`
(Python `l.startswith(p)`, or a regex literal matching at the current
position). -/
def isPre : Text → Text → Bool
  | [], _ => true
  | _ :: _, [] => false
  | c :: cs, d :: ds => c == d && isPre cs ds

/-- Python `pat in l`: some position of `l` starts with `pat`. -/
def containsSub (pat : Text) : Text → Bool
  | [] => isPre pat []
  | c :: cs => isPre pat (c :: cs) || containsSub pat cs

/-- Lexicographic comparison of code-point sequences, as Python compares
strings (`a <= b`). -/
def lexLe : Text → Text → Bool
  | [], _ => true
  | _ :: _, [] => false
  | c :: cs, d :: ds => if c = d then lexLe cs ds else decide (c < d)

/-- One step of a left-to-right scanner: given the state and the remaining
input, either report a match (emitted output, new state, rest of the input
after the consumed match) or no match at this position. -/
abbrev ScanStep (σ : Type) := σ → Text → Option (Text × σ × Text)

/-- Left-to-right, non-overlapping scan, as performed by Python `re.sub` and
`str.replace`: at each position try the step; on a match emit its output and
resume after the consumed text (replacements are never rescanned), otherwise
copy one character.  Fuel is consumed one unit per position; every match
consumes at least one character of input, so fuel equal to the input length
suffices. -/
def scanFuel {σ : Type} (step : ScanStep σ) : Nat → Text → σ → Text × σ
  | 0, l, s => (l, s)
  | _ + 1, [], s => ([], s)
  | f + 1, c :: cs, s =>
    match step s (c :: cs) with
    | some (out, s2, rest) =>
      let t := scanFuel step f rest s2
      (out ++ t.1, t.2)
    | none =>
      let t := scanFuel step f cs s
      (c :: t.1, t.2)

/-- Run a scanner over a whole text. -/
def scanText {σ : Type} (step : ScanStep σ) (l : Text) (s : σ) : Text × σ :=
  scanFuel step l.length l s

/-- A step function consumes input: the rest after any match is strictly
shorter than the text it matched in. -/
def Consuming {σ : Type} (step : ScanStep σ) : Prop :=
  ∀ s l out s2 rest, step s l = some (out, s2, rest) → rest.length < l.length

/-- Decidable equality for scanner-step results, so that witnesses can
check no-match hypotheses by `decide`. -/
instance optScanResultDecEq {σ : Type} [DecidableEq σ] :
    DecidableEq (Option (Text × σ × Text)) := fun a b =>
  match a, b with
  | none, none => isTrue rfl
  | some _, none => isFalse (by simp)
  | none, some _ => isFalse (by simp)
  | some x, some y =>
    match decEq x y with
    | isTrue h => isTrue (by rw [h])
    | isFalse h => isFalse (by simpa using h)

/-- Scanner step for Python `str.replace(pat, repl)` (all occurrences,
left to right, non-overlapping).  The (empty-pattern) guard is never exercised
by the sources, whose patterns are all nonempty literals. -/
def replaceStep (pat repl : Text) : ScanStep Unit := fun _ l =>
  if !pat.isEmpty && isPre pat l then some (repl, (), l.drop pat.length) else none

/-- Python `l.replace(pat, repl)`. -/
def pyReplace (l pat repl : Text) : Text :=
  (scanText (replaceStep pat repl) l ()).1

/-- Scanner step counting non-overlapping occurrences of `pat`. -/
def countStep (pat : Text) : ScanStep Nat := fun n l =>
  if !pat.isEmpty && isPre pat l then some ([], n + 1, l.drop pat.length) else none

/-- Number of non-overlapping occurrences of `pat` in `l` (the observable
used to state "exactly one block" / "two blocks" properties). -/
def countSub (pat l : Text) : Nat :=
  (scanText (countStep pat) l 0).2

/-! ### Embedding of the source (`publish.py`, mirrored in `codecraft.py`) -/

/-- `PLACEHOLDER_POSTS` in the source. -/
def PLACEHOLDER_POSTS : Text := "INCLUDE_POSTS_PLACEHOLDER".data

/-- `PLACEHOLDER_CATEGORY` in the source. -/
def PLACEHOLDER_CATEGORY : Text := "INCLUDE_CATEGORY_PLACEHOLDER".data

/-- `PLACEHOLDER_ARCHIVE` in the source. -/
def PLACEHOLDER_ARCHIVE : Text := "INCLUDE_ARCHIVE_PLACEHOLDER".data

def markerPostsTrim : Text := "\x7b%- include posts.html -%\x7d".data
def markerPosts : Text := "\x7b% include posts.html %\x7d".data
def markerCategoryTrim : Text := "\x7b%- include category.html -%\x7d".data
def markerCategory : Text := "\x7b% include category.html %\x7d".data
def markerArchiveTrim : Text := "\x7b%- include archive.html -%\x7d".data
def markerArchive : Text := "\x7b% include archive.html %\x7d".data

def kindPosts : Text := "posts".data
def kindCategory : Text := "category".data
def kindArchive : Text := "archive".data

/-- `extract_include_directives`: for each of the three include kinds, if
either bracket form occurs, record one token-to-kind entry (a dict
assignment: the directives are a mapping, and each kind uses one fixed
placeholder) and replace every occurrence of both forms by that
placeholder. -/
def extractIncludeDirectives (content : Text) : Text × List (Text × Text) :=
  let st0 : Text × List (Text × Text) := (content, [])
  let st1 :=
    if containsSub markerPostsTrim st0.1 || containsSub markerPosts st0.1 then
      (pyReplace (pyReplace st0.1 markerPostsTrim PLACEHOLDER_POSTS) markerPosts PLACEHOLDER_POSTS,
       st0.2 ++ [(PLACEHOLDER_POSTS, kindPosts)])
    else st0
  let st2 :=
    if containsSub markerCategoryTrim st1.1 || containsSub markerCategory st1.1 then
      (pyReplace (pyReplace st1.1 markerCategoryTrim PLACEHOLDER_CATEGORY) markerCategory PLACEHOLDER_CATEGORY,
       st1.2 ++ [(PLACEHOLDER_CATEGORY, kindCategory)])
    else st1
  if containsSub markerArchiveTrim st2.1 || containsSub markerArchive st2.1 then
    (pyReplace (pyReplace st2.1 markerArchiveTrim PLACEHOLDER_ARCHIVE) markerArchive PLACEHOLDER_ARCHIVE,
     st2.2 ++ [(PLACEHOLDER_ARCHIVE, kindArchive)])
  else st2

/-- Python dict assignment `d[k] = v` on an insertion-ordered association
list: an existing key keeps its position and gets the new value, a new key is
appended. -/
def dictInsert (d : List (Text × Text)) (k v : Text) : List (Text × Text) :=
  if d.any (fun p => p.1 == k) then
    d.map (fun p => if p.1 == k then (p.1, v) else p)
  else d ++ [(k, v)]

def exampleOpen : Text := "[example:".data
def examplePlaceholderPre : Text := "EXAMPLE_PLACEHOLDER_".data
def kindExamplePre : Text := "example:".data
def blank2 : Text := "\n\n".data

/-- One position of the `re.sub(r'\[example:(\d+)\]', ...)` scan in
`extract_example_shortcodes`: on a match of bracket, literal `example:`,
one or more digits, closing bracket, emit the placeholder (surrounded by
blank lines) and record `placeholder -> example:<id>` in the directives
dict.  Note the placeholder is `EXAMPLE_PLACEHOLDER_` plus the captured id
only — there is no occurrence counter in the source. -/
def exampleStep : ScanStep (List (Text × Text)) := fun d l =>
  if isPre exampleOpen l then
    let r := l.drop exampleOpen.length
    let ds := r.takeWhile Char.isDigit
    if ds.isEmpty then none
    else if isPre [']'] (r.drop ds.length) then
      some (blank2 ++ (examplePlaceholderPre ++ ds) ++ blank2,
            dictInsert d (examplePlaceholderPre ++ ds) (kindExamplePre ++ ds),
            r.drop (ds.length + 1))
    else none
  else none

/-- `extract_example_shortcodes(content, directives)`: returns the new
content and the updated (mutated, in the source) directives dict. -/
def extractExampleShortcodes (content : Text) (directives : List (Text × Text)) :
    Text × List (Text × Text) :=
  scanText exampleStep content directives

/-- Split a text at the first occurrence of `pat`: returns the part before
the occurrence and the part after it (the non-greedy `(.*?)pat` capture). -/
def splitAtSubFuel (pat : Text) : Nat → Text → Option (Text × Text)
  | 0, _ => none
  | _ + 1, [] => none
  | f + 1, c :: cs =>
    if isPre pat (c :: cs) then some ([], (c :: cs).drop pat.length)
    else (splitAtSubFuel pat f cs).map (fun pr => (c :: pr.1, pr.2))

def splitAtSub (pat l : Text) : Option (Text × Text) := splitAtSubFuel pat l.length l

/-- Decimal digits of a natural number, as text. -/
def natText (n : Nat) : Text := Nat.toDigits 10 n

def mermaidOpen : Text := "```mermaid\n".data
def fenceT : Text := "```".data
def mermaidPlaceholderPre : Text := "MERMAID_PLACEHOLDER_".data

/-- One position of the `re.sub(r'```mermaid\n(.*?)```', ..., DOTALL)` scan
in `extract_mermaid_blocks`: the body is everything up to the next triple
backtick (non-greedy); an unterminated fence does not match.  The
placeholder index is the number of blocks collected so far. -/
def mermaidStep : ScanStep (List Text) := fun blocks l =>
  if isPre mermaidOpen l then
    match splitAtSub fenceT (l.drop mermaidOpen.length) with
    | some (body, rest) =>
      some (blank2 ++ (mermaidPlaceholderPre ++ natText blocks.length) ++ blank2,
            blocks ++ [body], rest)
    | none => none
  else none

/-- `extract_mermaid_blocks`. -/
def extractMermaidBlocks (content : Text) : Text × List Text :=
  scanText mermaidStep content []

/-- The paragraph-wrapped mermaid placeholder `<p>MERMAID_PLACEHOLDER_i</p>`
that `restore_mermaid_blocks` searches for. -/
def mermaidPara (i : Nat) : Text :=
  "<p>MERMAID_PLACEHOLDER_".data ++ natText i ++ "</p>".data

/-- The restored code-block shell with the raw (non-HTML-escaped) diagram
source. -/
def mermaidShell (body : Text) : Text :=
  "<pre><code class=\"language-mermaid\">".data ++ body ++ "</code></pre>".data

/-- `restore_mermaid_blocks`: for each stored block, in discovery order,
replace its paragraph-wrapped placeholder by the code-block shell. -/
def restoreMermaidBlocks (contentHtml : Text) (blocks : List Text) : Text :=
  (blocks.foldl (fun acc mb => (pyReplace acc.1 (mermaidPara acc.2) (mermaidShell mb), acc.2 + 1))
    (contentHtml, 0)).1

/-- Python regex `\w` on the ASCII range. -/
def isWordChar (c : Char) : Bool := c.isAlphanum || c == '_'

def rougeOpen : Text := "<div class=\"highlighter-rouge\">".data
def divClose : Text := "</div>".data
def langDefault : Text := "text".data

/-- The unhighlighted fallback shell produced by the bare `except:` branch of
`highlight_match`: raw, un-escaped code text inside
`<pre><code class="language-<lang>">`, in the two nested wrappers. -/
def highlightFallback (lang code : Text) : Text :=
  "<div class=\"highlighter-rouge\"><div class=\"highlight\"><pre><code class=\"language-".data
    ++ lang ++ "\">".data ++ code ++ "</code></pre></div></div>".data

/-- `highlight_match`: the external Pygments pipeline
(`get_lexer_by_name` + `highlight`) is injected as `hl`; `none` models any
exception, which the source swallows with a bare `except:` and answers with
the fallback shell, so the function is total (never raises). -/
def highlightMatch (hl : Text → Text → Option Text) (langOpt : Option Text) (code : Text) : Text :=
  let lang := langOpt.getD langDefault
  match hl lang code with
  | some highlighted => rougeOpen ++ highlighted ++ divClose
  | none => highlightFallback lang code

/-- One position of the `re.sub(r'```(\w+)?\n(.*?)```', ..., DOTALL)` scan in
`highlight_code_blocks`: optional word-character language tag, a newline,
then the non-greedy body up to the next triple backtick. -/
def codeStep (hl : Text → Text → Option Text) : ScanStep Unit := fun _ l =>
  if isPre fenceT l then
    let r := l.drop fenceT.length
    let w := r.takeWhile isWordChar
    if isPre ['\n'] (r.drop w.length) then
      match splitAtSub fenceT (r.drop (w.length + 1)) with
      | some (body, rest) =>
        some (highlightMatch hl (if w.isEmpty then none else some w) body, (), rest)
      | none => none
    else none
  else none

/-- `highlight_code_blocks`. -/
def highlightCodeBlocks (hl : Text → Text → Option Text) (content : Text) : Text :=
  (scanText (codeStep hl) content ()).1

/-- The post/page record produced by `parse_markdown_file` (the `PostData`
dataclass of `codecraft.py`); the Python dict key `section` is the
`sectionName` field (`section` is reserved in Lean), absent/None is `none`. -/
structure PageData where
  content : Text
  title : Text
  date : Text
  url : Text
  filePath : Text
  comments : Bool
  mermaid : Bool
  codepen : Bool
  toc : Bool
  banner : Bool
  sidebar : Bool
  collection : Text
  sectionName : Option Text
  includeDirectives : List (Text × Text)
deriving DecidableEq

/-- `normalize_url_path`: Python `path.strip('/')`. -/
def normalizeUrlPath (p : Text) : Text :=
  ((p.dropWhile (fun c => c == '/')).reverse.dropWhile (fun c => c == '/')).reverse

/-- Python `str.split(sep)` for a single-character separator: always returns
at least one (possibly empty) segment. -/
def splitOnChar (sep : Char) : Text → List Text
  | [] => [[]]
  | c :: cs =>
    match splitOnChar sep cs with
    | [] => [[]]
    | h :: t => if c == sep then [] :: h :: t else (c :: h) :: t

/-- `normalize_url_path(url).split('/')[-1]` (the split list is never empty,
so the Python `[-1]` index always exists; the default is never used). -/
def lastUrlSegment (url : Text) : Text :=
  (splitOnChar '/' (normalizeUrlPath url)).getLastD []

/-- `_render_category_include`: resolves the section name (an unset or empty
`section` falls back to the last segment of the normalized url), writes it
back into the page record, and renders the category template (injected as
`tmpl`) against the updated record.  Returns (rendered HTML, updated
record). -/
def renderCategoryInclude (tmpl : PageData → Text) (page : PageData) : Text × PageData :=
  let s0 := page.sectionName.getD []
  let sec := if s0.isEmpty then lastUrlSegment page.url else s0
  let page2 := { page with sectionName := some sec }
  (tmpl page2, page2)

/-- The example-viewer element produced for `example:<id>` directives. -/
def exampleViewer (id : Text) : Text :=
  "<div class=\"example-viewer\" data-example-id=\"".data ++ id ++ "\"></div>".data

/-- A token wrapped in the paragraph tag the Markdown parser may have
produced. -/
def paraWrap (ph : Text) : Text := "<p>".data ++ ph ++ "</p>".data

/-- The two-candidate substitution of `_process_include_directives`:
first replace the paragraph-wrapped form of the token, then the bare
token, both with the same resolved block. -/
def replaceBoth (content ph r : Text) : Text :=
  pyReplace (pyReplace content (paraWrap ph) r) ph r

/-- `directive_type.split(':')[1]` (guarded by `startswith('example:')`, so
the index exists; the default is never used). -/
def splitColonSecond (kind : Text) : Text := ((splitOnChar ':' kind).drop 1).headD []

/-- The loop body of `_process_include_directives` for one
`(placeholder, directive_type)` entry: dispatch on the kind (an unrecognized
kind is skipped by `continue`, leaving content and page untouched), then
replace paragraph-wrapped and bare token by the resolved block.  The posts
and archive renders do not depend on the page, so they are injected as fixed
texts; the category render mutates the page record. -/
def processStep (rPosts rArchive : Text) (tmplCat : PageData → Text)
    (st : Text × PageData) (pr : Text × Text) : Text × PageData :=
  let content := st.1
  let page := st.2
  let ph := pr.1
  let kind := pr.2
  if kind = kindPosts then (replaceBoth content ph rPosts, page)
  else if kind = kindCategory then
    let t := renderCategoryInclude tmplCat page
    (replaceBoth content ph t.1, t.2)
  else if kind = kindArchive then (replaceBoth content ph rArchive, page)
  else if isPre kindExamplePre kind then
    (replaceBoth content ph (exampleViewer (splitColonSecond kind)), page)
  else (content, page)

/-- `_process_include_directives`: fold the loop body over the directive
dict in insertion order, starting from the page content. -/
def processIncludeDirectives (rPosts rArchive : Text) (tmplCat : PageData → Text)
    (page : PageData) : Text × PageData :=
  page.includeDirectives.foldl (processStep rPosts rArchive tmplCat) (page.content, page)

/-- One config rule: `scope.path` (empty when absent) and the optional
`features` mapping. -/
structure Rule where
  scopePath : Text
  features : Option (List (Text × Bool))

/-- Python `dict.update(kvs)` on an insertion-ordered association list. -/
def dictUpdateB (d : List (Text × Bool)) (kvs : List (Text × Bool)) : List (Text × Bool) :=
  kvs.foldl (fun acc kv =>
    if acc.any (fun p => p.1 == kv.1) then
      acc.map (fun p => if p.1 == kv.1 then (p.1, kv.2) else p)
    else acc ++ [kv]) d

/-- Python `d.get(k, dflt)`. -/
def lookupBD (d : List (Text × Bool)) (k : Text) (dflt : Bool) : Bool :=
  match d.find? (fun p => p.1 == k) with
  | some p => p.2
  | none => dflt

def kToc : Text := "toc".data
def kComments : Text := "comments".data
def kMermaid : Text := "mermaid".data
def kCodepen : Text := "codepen".data
def kBanner : Text := "banner".data

/-- The literal `defaults` dict seeded by `_get_path_defaults` before any
rule is applied: note that it always contains a `toc` entry (False). -/
def basePathDefaults : List (Text × Bool) :=
  [(kToc, false), (kComments, false), (kMermaid, false), (kCodepen, false), (kBanner, false)]

/-- `_get_path_defaults`: apply `features` of every rule whose non-empty
`scope.path` is a substring of the file path, over the seeded defaults. -/
def getPathDefaults (rules : List Rule) (filePath : Text) : List (Text × Bool) :=
  rules.foldl (fun d r =>
    if !r.scopePath.isEmpty && containsSub r.scopePath filePath then
      match r.features with
      | some fs => dictUpdateB d fs
      | none => d
    else d) basePathDefaults

/-- The optional boolean frontmatter keys read by `parse_markdown_file`
(`post.get(key, fallback)`: `none` means the key is absent). -/
structure FrontmatterFlags where
  comments : Option Bool
  mermaid : Option Bool
  codepen : Option Bool
  toc : Option Bool
  banner : Option Bool
  sidebar : Option Bool

/-- The resolved boolean feature flags of the returned record. -/
structure ResolvedFlags where
  comments : Bool
  mermaid : Bool
  codepen : Bool
  toc : Bool
  banner : Bool
  sidebar : Bool
deriving DecidableEq

/-- The feature-flag resolution of `parse_markdown_file`: each flag is
`post.get(key, path_defaults.get(key, hard_default))`, with hard default
`is_post` for `toc`, `True` for `sidebar` (which ignores path defaults), and
`False` for the rest. -/
def resolveFeatureFlags (fm : FrontmatterFlags) (pd : List (Text × Bool)) (isPost : Bool) :
    ResolvedFlags :=
  { comments := fm.comments.getD (lookupBD pd kComments false)
  , mermaid := fm.mermaid.getD (lookupBD pd kMermaid false)
  , codepen := fm.codepen.getD (lookupBD pd kCodepen false)
  , toc := fm.toc.getD (lookupBD pd kToc isPost)
  , banner := fm.banner.getD (lookupBD pd kBanner false)
  , sidebar := fm.sidebar.getD true }

/-- An empty frontmatter header (no optional keys present). -/
def emptyFrontmatter : FrontmatterFlags :=
  { comments := none, mermaid := none, codepen := none, toc := none
  , banner := none, sidebar := none }

/-- A post as sorted by the Collection Store: the `dateString` key and an
identity (slug) used to observe ordering. -/
structure PostRec where
  date : Text
  slug : Text
deriving DecidableEq

/-- Stable descending insertion by `date`: the new element goes before the
first element whose date is `<=` its own, so earlier-discovered posts stay
before later ones with an equal date. -/
def insertPostDesc (p : PostRec) : List PostRec → List PostRec
  | [] => [p]
  | q :: qs => if lexLe q.date p.date then p :: q :: qs else q :: insertPostDesc p qs

/-- Python `list.sort(key=lambda x: x.get('date',''), reverse=True)`:
a stable sort descending by the date string.  Stable descending sorting is
extensionally unique, so this insertion sort is the same function as
Python's Timsort with `reverse=True` (which keeps equal keys in their
original order). -/
def sortPostsDesc (l : List PostRec) : List PostRec := l.foldr insertPostDesc []

/-- `collect_posts`' per-collection sort applied to a store. -/
def sortStore (store : List (Text × List PostRec)) : List (Text × List PostRec) :=
  store.map (fun kv => (kv.1, sortPostsDesc kv.2))

/-- `get_all_posts`: flatten every collection in store order and re-sort by
date descending; recomputed on demand, never cached. -/
def getAllPosts (store : List (Text × List PostRec)) : List PostRec :=
  sortPostsDesc (store.foldl (fun acc kv => acc ++ kv.2) [])

mutual
/-- A YAML/JSON-style value for `apply_defaults`: a non-dict leaf (the merge
treats every non-dict value uniformly, so a numeric payload suffices) or a
dict. -/
inductive Val where
  | atom : Nat → Val
  | dict : Entries → Val
/-- Dict entries in insertion order. -/
inductive Entries where
  | nil : Entries
  | cons : String → Val → Entries → Entries
end

/-- First-match lookup, Python `k in target` / `target[k]`. -/
def lookupE : Entries → String → Option Val
  | .nil, _ => none
  | .cons k2 v rest, k => if k2 == k then some v else lookupE rest k

/-- Replace the value at the first occurrence of a key (used only on present
keys, mirroring in-place mutation of the node returned by `setdefault`). -/
def setE : Entries → String → Val → Entries
  | .nil, _, _ => .nil
  | .cons k2 v2 rest, k, v => if k2 == k then .cons k2 v rest else .cons k2 v2 (setE rest k v)

/-- Insertion of a fresh key at the end, as Python `setdefault` does for an
absent key. -/
def appendE : Entries → String → Val → Entries
  | .nil, k, v => .cons k v .nil
  | .cons k2 v2 rest, k, v => .cons k2 v2 (appendE rest k v)

def isEmptyE : Entries → Bool
  | .nil => true
  | .cons _ _ _ => false

/-- The only error of the embedded `deep_merge`: Python's `AttributeError`
from calling `setdefault` on a non-dict node (a non-dict target merged with
a nonempty source dict). -/
inductive MergeErr where
  | attrError
deriving DecidableEq

/-- `deep_merge(target, source)` of `apply_defaults`, embedded functionally:
for each source entry in order, a dict value is merged recursively into
`node = target.setdefault(key, {})` — which raises `AttributeError` when
that node is a non-dict and the source dict is nonempty — and a non-dict
value is inserted by `setdefault` only when the key is absent. -/
def mergeEntries (t : Entries) : Entries → Except MergeErr Entries
  | .nil => .ok t
  | .cons k (.atom a) rest =>
    match lookupE t k with
    | some _ => mergeEntries t rest
    | none => mergeEntries (appendE t k (.atom a)) rest
  | .cons k (.dict d) rest =>
    match lookupE t k with
    | some (.dict tn) =>
      match mergeEntries tn d with
      | .ok tn2 => mergeEntries (setE t k (.dict tn2)) rest
      | .error e => .error e
    | some (.atom _) =>
      if isEmptyE d then mergeEntries t rest else .error .attrError
    | none =>
      match mergeEntries .nil d with
      | .ok tn2 => mergeEntries (appendE t k (.dict tn2)) rest
      | .error e => .error e

/-- `apply_defaults(data, defaults)`: merge the defaults into a deep copy of
`data` (`None` and the empty dict both become a fresh empty dict); the input
itself is never touched — `merged_data = copy.deepcopy(data) if data else
{}` — which the functional embedding reflects. -/
def applyDefaults (data : Option Entries) (defaults : Entries) : Except MergeErr Entries :=
  mergeEntries (data.getD .nil) defaults

/-- Navigate a value along a path of keys (the observable for
"at any nesting depth"). -/
def getPath : Val → List String → Option Val
  | v, [] => some v
  | .dict t, k :: ks =>
    match lookupE t k with
    | some v => getPath v ks
    | none => none
  | .atom _, _ :: _ => none

/-- The three extraction steps of the Placeholder Protector in the order
`process_markdown_content` runs them: include directives, example
shortcodes, mermaid blocks.  Returns the protected text, the directive
mapping, and the mermaid block list. -/
def protectorExtract (content : Text) : Text × List (Text × Text) × List Text :=
  let p1 := extractIncludeDirectives content
  let p2 := extractExampleShortcodes p1.1 p1.2
  let p3 := extractMermaidBlocks p2.1
  (p3.1, p2.2, p3.2)

/-- The descending relation the Collection Store is sorted by. -/
def descBy (p q : PostRec) : Prop := lexLe q.date p.date = true

/-- Leaf values of the target survive the merge at every path (no
overwrite at any nesting depth). -/
def PreservesLeaves (t t2 : Entries) : Prop :=
  ∀ path n, getPath (.dict t) path = some (.atom n) → getPath (.dict t2) path = some (.atom n)

/-- Keys present in the target stay present after the merge. -/
def PreservesKeys (t t2 : Entries) : Prop :=
  ∀ k v, lookupE t k = some v → ∃ w, lookupE t2 k = some w

/-- Top-level non-dict defaults fill in exactly the missing keys. -/
def FillsAtoms (t s t2 : Entries) : Prop :=
  ∀ k a, lookupE t k = none → lookupE s k = some (.atom a) → lookupE t2 k = some (.atom a)

/-- A concrete page record for witnesses and counterexamples. -/
def pageFixture (content url : Text) (sec : Option Text) (dirs : List (Text × Text)) : PageData :=
  { content := content, title := [], date := [], url := url, filePath := []
  , comments := false, mermaid := false, codepen := false, toc := false
  , banner := false, sidebar := true, collection := [], sectionName := sec
  , includeDirectives := dirs }

/-- A category template stub for witnesses and counterexamples. -/
def emptyTmpl : PageData → Text := fun _ => []

/-! Concrete fixtures used by witnesses and counterexamples. -/

def sampleFilePath : Text := "content/code/hello.md".data
def digits5 : Text := "5".data
def digits7 : Text := "7".data
def exDocA : Text := "[example:5] x [example:5]".data
def exDocB : Text := "[example:5][example:7] [example:5]".data
def exSpacerA : Text := " x ".data
def exSpacerB : Text := " ".data
def c2mid : Text := "\nmiddle\n".data
def c2rendered : Text := "<ul>POSTS</ul>".data
def rootUrl : Text := "/".data
def c6a : Text := "Intro\n\n".data
def c6body : Text := "graph TD;\nA-->B;\n".data
def c6b : Text := "\n\nTail".data
def c6c : Text := "<h1>T</h1>\n".data
def c6d : Text := "\n<p>x</p>".data
def preOpenTag : Text := "<pre>".data
def preCloseTags : Text := "</code></pre>".data
def mermaidCodeTag : Text := "<code class=\"language-mermaid\">".data
def langFoobar : Text := "foobar123".data
def c7code : Text := "print(1) <tag>\n".data
def langClassPre : Text := "language-".data
def c7shellPre : Text := "<div class=\"highlighter-rouge\"><div class=\"highlight\"><pre><code class=\"".data
def c7shellMid : Text := "\">".data
def c7shellSuf : Text := "</code></pre></div></div>".data
def c8content : Text := "Hello *world*\n\nSome `x` text.".data
def dJan : Text := "2024-01-01".data
def dMar : Text := "2024-03-01".data
def dDec : Text := "2023-12-31".data
def slugA : Text := "a".data
def slugB : Text := "b".data
def slugC : Text := "c".data
def collCode : Text := "code".data
def collDesign : Text := "design".data
def postA : PostRec := { date := dJan, slug := slugA }
def postB : PostRec := { date := dMar, slug := slugB }
def postC : PostRec := { date := dDec, slug := slugC }
def demoStore : List (Text × List PostRec) := [(collCode, [postA, postB]), (collDesign, [postC])]
def keyA : String := "a"
def keyB : String := "b"
def keyX : String := "x"
def keyY : String := "y"
def mergeDataFx : Entries := .cons keyX (.atom 7) .nil
def mergeDefaultsFx : Entries := .cons keyX (.atom 9) (.cons keyY (.atom 1) .nil)
def mergeResultFx : Entries := .cons keyX (.atom 7) (.cons keyY (.atom 1) .nil)
def mergeBadData : Entries := .cons keyA (.atom 5) .nil
def mergeBadDefaults : Entries := .cons keyA (.dict (.cons keyB (.atom 1) .nil)) .nil
def unknownKind : Text := "widget".data
def aboutUrl : Text := "about/".data
def aboutSeg : Text := "about".data
def c2a : Text := "A\n".data
def c2b : Text := "\nB".data
def c2doc : Text := markerPosts ++ (c2mid ++ markerPosts)
def c2page : PageData :=
  pageFixture (extractIncludeDirectives c2doc).1 [] none (extractIncludeDirectives c2doc).2
def noneHl : Text → Text → Option Text := fun _ _ => none

/-! ### Basic lemmas about the text primitives -/

theorem isPre_append_self (p t : Text) : isPre p (p ++ t) = true := by
  induction p with
  | nil => rfl
  | cons c cs ih => simp [isPre, ih]

theorem isPre_length {p l : Text} (h : isPre p l = true) : p.length ≤ l.length := by
  induction p generalizing l with
  | nil => simp
  | cons c cs ih =>
    cases l with
    | nil => simp [isPre] at h
    | cons d ds =>
      simp only [isPre, Bool.and_eq_true] at h
      simpa [Nat.succ_le_succ_iff] using ih h.2

theorem isPre_false_of_length {p l : Text} (h : l.length < p.length) : isPre p l = false := by
  by_contra hc
  have := isPre_length (by simpa using Bool.of_not_eq_false hc)
  omega

theorem drop_len_append (p t : Text) : (p ++ t).drop p.length = t := List.drop_left p t

theorem isPre_eq_append {p l : Text} (h : isPre p l = true) : l = p ++ l.drop p.length := by
  induction p generalizing l with
  | nil => simp
  | cons c cs ih =>
    cases l with
    | nil => simp [isPre] at h
    | cons d ds =>
      simp only [isPre, Bool.and_eq_true, beq_iff_eq] at h
      obtain ⟨rfl, h2⟩ := h
      simpa using ih h2

/-- With no match at any position the scanner copies the input and keeps its
state, regardless of fuel. -/
theorem scanFuel_none {σ : Type} {step : ScanStep σ} {s : σ} :
    ∀ (f : Nat) (l : Text), (∀ i < l.length, step s (l.drop i) = none) →
      scanFuel step f l s = (l, s) := by
  intro f
  induction f with
  | zero => intro l _; rfl
  | succ f ih =>
    intro l h
    cases l with
    | nil => rfl
    | cons c cs =>
      have h0 : step s (c :: cs) = none := by simpa using h 0 (by simp)
      have hrest : ∀ i < cs.length, step s (cs.drop i) = none := by
        intro i hi
        simpa [List.drop] using h (i + 1) (by simpa using Nat.succ_lt_succ hi)
      simp [scanFuel, h0, ih cs hrest]

/-- Fuel irrelevance: any fuel at least the input length gives the same
result, provided the step consumes input. -/
theorem scanFuel_congr {σ : Type} {step : ScanStep σ} (hstep : Consuming step) :
    ∀ (f1 : Nat) (f2 : Nat) (l : Text) (s : σ), l.length ≤ f1 → l.length ≤ f2 →
      scanFuel step f1 l s = scanFuel step f2 l s := by
  intro f1
  induction f1 with
  | zero =>
    intro f2 l s h1 _
    have : l = [] := List.eq_nil_of_length_eq_zero (Nat.le_zero.mp h1)
    subst this
    cases f2 <;> rfl
  | succ f ih =>
    intro f2 l s h1 h2
    cases l with
    | nil => cases f2 <;> rfl
    | cons c cs =>
      cases f2 with
      | zero => simp at h2
      | succ g =>
        have hlen : (c :: cs).length = cs.length + 1 := rfl
        cases hm : step s (c :: cs) with
        | some t =>
          obtain ⟨out, s2, rest⟩ := t
          have hlt := hstep s (c :: cs) out s2 rest hm
          have hr1 : rest.length ≤ f := by rw [hlen] at hlt h1; omega
          have hr2 : rest.length ≤ g := by rw [hlen] at hlt h2; omega
          simp only [scanFuel, hm]
          rw [ih g rest s2 hr1 hr2]
        | none =>
          have hc1 : cs.length ≤ f := by rw [hlen] at h1; omega
          have hc2 : cs.length ≤ g := by rw [hlen] at h2; omega
          simp only [scanFuel, hm]
          rw [ih g cs s hc1 hc2]

/-- Skip an unmatched segment `a`, fire the match at its end, and continue
with canonical fuel on the rest. -/
theorem scanFuel_skip {σ : Type} {step : ScanStep σ} (hstep : Consuming step)
    {s s2 : σ} {out rest : Text} :
    ∀ (a : Text) (m : Text) (f : Nat),
      (∀ i < a.length, step s ((a ++ m).drop i) = none) →
      step s m = some (out, s2, rest) →
      (a ++ m).length ≤ f →
      scanFuel step f (a ++ m) s =
        (a ++ out ++ (scanFuel step rest.length rest s2).1,
         (scanFuel step rest.length rest s2).2) := by
  intro a
  induction a with
  | nil =>
    intro m f _ hm hf
    have hlt := hstep s m out s2 rest hm
    cases m with
    | nil => simp at hlt
    | cons c cs =>
      cases f with
      | zero => simp at hf
      | succ g =>
        have hr : rest.length ≤ g := by
          have hlen : (c :: cs).length = cs.length + 1 := rfl
          rw [hlen] at hlt
          simp only [List.nil_append, hlen] at hf
          omega
        simp only [List.nil_append, scanFuel, hm]
        rw [scanFuel_congr hstep g rest.length rest s2 hr le_rfl]
  | cons x a' ih =>
    intro m f hno hm hf
    cases f with
    | zero => simp at hf
    | succ g =>
      have h0 : step s (x :: (a' ++ m)) = none := by simpa using hno 0 (by simp)
      have hrest : ∀ i < a'.length, step s ((a' ++ m).drop i) = none := by
        intro i hi
        simpa using hno (i + 1) (by simp; omega)
      simp only [List.cons_append, scanFuel, List.append_eq, h0]
      rw [ih m g hrest hm (by simpa using Nat.le_of_succ_le_succ hf)]

theorem replaceStep_consuming (pat repl : Text) : Consuming (replaceStep pat repl) := by
  intro s l out s2 rest h
  simp only [replaceStep] at h
  split at h
  · rename_i hc
    simp only [Bool.and_eq_true, Bool.not_eq_true'] at hc
    obtain ⟨hne, hpre⟩ := hc
    have hp : 0 < pat.length := by
      cases pat with
      | nil => simp [List.isEmpty] at hne
      | cons c cs => simp
    have hlen := isPre_length hpre
    obtain ⟨-, -, rfl⟩ := by simpa using h.symm
    simp only [List.length_drop]
    omega
  · exact absurd h (by simp)

theorem countStep_consuming (pat : Text) : Consuming (countStep pat) := by
  intro s l out s2 rest h
  simp only [countStep] at h
  split at h
  · rename_i hc
    simp only [Bool.and_eq_true, Bool.not_eq_true'] at hc
    obtain ⟨hne, hpre⟩ := hc
    have hp : 0 < pat.length := by
      cases pat with
      | nil => simp [List.isEmpty] at hne
      | cons c cs => simp
    have hlen := isPre_length hpre
    obtain ⟨-, -, rfl⟩ := by simpa using h.symm
    simp only [List.length_drop]
    omega
  · exact absurd h (by simp)

theorem isEmpty_false_of_ne {l : Text} (h : l ≠ []) : l.isEmpty = false := by
  cases l with
  | nil => exact absurd rfl h
  | cons c cs => rfl

theorem replaceStep_matches {pat : Text} (repl : Text) (hp : pat ≠ []) (t : Text) :
    replaceStep pat repl () (pat ++ t) = some (repl, (), t) := by
  simp [replaceStep, isEmpty_false_of_ne hp, isPre_append_self, drop_len_append]

theorem countStep_matches {pat : Text} (hp : pat ≠ []) (n : Nat) (t : Text) :
    countStep pat n (pat ++ t) = some ([], n + 1, t) := by
  simp [countStep, isEmpty_false_of_ne hp, isPre_append_self, drop_len_append]

theorem replaceStep_none {pat repl : Text} {s : Unit} {l : Text}
    (h : isPre pat l = false) : replaceStep pat repl s l = none := by
  simp [replaceStep, h]

theorem countStep_none {pat : Text} {n : Nat} {l : Text}
    (h : isPre pat l = false) : countStep pat n l = none := by
  simp [countStep, h]

/-- `str.replace` on a text with no occurrence of the pattern is the
identity. -/
theorem pyReplace_id {pat : Text} (repl : Text) {l : Text}
    (h : ∀ i < l.length, isPre pat (l.drop i) = false) :
    pyReplace l pat repl = l := by
  unfold pyReplace scanText
  rw [scanFuel_none l.length l (fun i hi => replaceStep_none (h i hi))]

/-- `str.replace` on a text with exactly one occurrence of the pattern
replaces exactly that occurrence. -/
theorem pyReplace_one {pat : Text} (repl : Text) {a b : Text} (hp : pat ≠ [])
    (ha : ∀ i < a.length, isPre pat ((a ++ pat ++ b).drop i) = false)
    (hb : ∀ i < b.length, isPre pat (b.drop i) = false) :
    pyReplace (a ++ pat ++ b) pat repl = a ++ repl ++ b := by
  unfold pyReplace scanText
  rw [List.append_assoc]
  rw [scanFuel_skip (replaceStep_consuming pat repl) a (pat ++ b) (a ++ (pat ++ b)).length
      (by intro i hi; rw [← List.append_assoc]; exact replaceStep_none (ha i hi))
      (replaceStep_matches repl hp b) le_rfl]
  rw [scanFuel_none b.length b (fun i hi => replaceStep_none (hb i hi))]

/-- `str.replace` on a text with exactly two occurrences of the pattern
replaces both of them (Python replaces every occurrence). -/
theorem pyReplace_two {pat : Text} (repl : Text) {a m b : Text} (hp : pat ≠ [])
    (ha : ∀ i < a.length, isPre pat ((a ++ pat ++ m ++ pat ++ b).drop i) = false)
    (hm : ∀ i < m.length, isPre pat ((m ++ pat ++ b).drop i) = false)
    (hb : ∀ i < b.length, isPre pat (b.drop i) = false) :
    pyReplace (a ++ pat ++ m ++ pat ++ b) pat repl = a ++ repl ++ m ++ repl ++ b := by
  unfold pyReplace scanText
  have hshape : a ++ pat ++ m ++ pat ++ b = a ++ (pat ++ (m ++ (pat ++ b))) := by
    simp [List.append_assoc]
  rw [hshape]
  rw [scanFuel_skip (replaceStep_consuming pat repl) a (pat ++ (m ++ (pat ++ b)))
      (a ++ (pat ++ (m ++ (pat ++ b)))).length
      (by intro i hi; rw [← hshape]; exact replaceStep_none (ha i hi))
      (replaceStep_matches repl hp (m ++ (pat ++ b))) le_rfl]
  rw [scanFuel_skip (replaceStep_consuming pat repl) m (pat ++ b) (m ++ (pat ++ b)).length
      (by intro i hi; rw [← List.append_assoc]; exact replaceStep_none (hm i hi))
      (replaceStep_matches repl hp b) le_rfl]
  rw [scanFuel_none b.length b (fun i hi => replaceStep_none (hb i hi))]
  simp [List.append_assoc]

/-- No occurrence of the pattern means a count of zero. -/
theorem countSub_zero {pat : Text} {l : Text}
    (h : ∀ i < l.length, isPre pat (l.drop i) = false) :
    countSub pat l = 0 := by
  unfold countSub scanText
  rw [scanFuel_none l.length l (fun i hi => countStep_none (h i hi))]

/-- Exactly one occurrence of the pattern means a count of one. -/
theorem countSub_one {pat : Text} {a b : Text} (hp : pat ≠ [])
    (ha : ∀ i < a.length, isPre pat ((a ++ pat ++ b).drop i) = false)
    (hb : ∀ i < b.length, isPre pat (b.drop i) = false) :
    countSub pat (a ++ pat ++ b) = 1 := by
  unfold countSub scanText
  rw [List.append_assoc]
  rw [scanFuel_skip (countStep_consuming pat) a (pat ++ b) (a ++ (pat ++ b)).length
      (by intro i hi; rw [← List.append_assoc]; exact countStep_none (ha i hi))
      (countStep_matches hp 0 b) le_rfl]
  rw [scanFuel_none b.length b (fun i hi => countStep_none (hb i hi))]

/-- Exactly two occurrences of the pattern mean a count of two. -/
theorem countSub_two {pat : Text} {a m b : Text} (hp : pat ≠ [])
    (ha : ∀ i < a.length, isPre pat ((a ++ pat ++ m ++ pat ++ b).drop i) = false)
    (hm : ∀ i < m.length, isPre pat ((m ++ pat ++ b).drop i) = false)
    (hb : ∀ i < b.length, isPre pat (b.drop i) = false) :
    countSub pat (a ++ pat ++ m ++ pat ++ b) = 2 := by
  unfold countSub scanText
  have hshape : a ++ pat ++ m ++ pat ++ b = a ++ (pat ++ (m ++ (pat ++ b))) := by
    simp [List.append_assoc]
  rw [hshape]
  rw [scanFuel_skip (countStep_consuming pat) a (pat ++ (m ++ (pat ++ b)))
      (a ++ (pat ++ (m ++ (pat ++ b)))).length
      (by intro i hi; rw [← hshape]; exact countStep_none (ha i hi))
      (countStep_matches hp 0 (m ++ (pat ++ b))) le_rfl]
  rw [scanFuel_skip (countStep_consuming pat) m (pat ++ b) (m ++ (pat ++ b)).length
      (by intro i hi; rw [← List.append_assoc]; exact countStep_none (hm i hi))
      (countStep_matches hp 1 b) le_rfl]
  rw [scanFuel_none b.length b (fun i hi => countStep_none (hb i hi))]

/-! ### Support lemmas for the embedded extractors -/

theorem containsSub_false_drop {pat l : Text} (h : containsSub pat l = false) :
    ∀ i, isPre pat (l.drop i) = false := by
  induction l with
  | nil =>
    intro i
    simp only [containsSub] at h
    simpa using h
  | cons c cs ih =>
    intro i
    simp only [containsSub, Bool.or_eq_false_iff] at h
    cases i with
    | zero => exact h.1
    | succ j => simpa using ih h.2 j

theorem containsSub_mid (pat x y : Text) : containsSub pat (x ++ (pat ++ y)) = true := by
  induction x with
  | nil =>
    cases hp : pat ++ y with
    | nil =>
      have : pat = [] := by
        cases pat with
        | nil => rfl
        | cons c cs => simp at hp
      simp [this, containsSub, isPre]
    | cons c cs =>
      simp only [List.nil_append, hp, containsSub]
      rw [← hp]
      simp [isPre_append_self]
  | cons c cs ih =>
    simp [containsSub, ih]

theorem pyReplace_self {pat : Text} (repl : Text) (hp : pat ≠ []) :
    pyReplace pat pat repl = repl := by
  have h := pyReplace_one (a := []) (b := []) repl hp
      (fun i hi => absurd hi (by simp)) (fun i hi => absurd hi (by simp))
  simpa using h

theorem takeWhile_append_stop {p : Char → Bool} :
    ∀ (w : Text) (x : Char) (r : Text), (∀ c ∈ w, p c = true) → p x = false →
      ((w ++ x :: r).takeWhile p) = w := by
  intro w
  induction w with
  | nil => intro x r _ hx; simp [List.takeWhile, hx]
  | cons c cs ih =>
    intro x r hw hx
    simp only [List.cons_append, List.takeWhile_cons]
    rw [hw c (by simp)]
    simp [ih x r (fun d hd => hw d (by simp [hd])) hx]

theorem splitAtSubFuel_shape {pat : Text} :
    ∀ (f : Nat) (l x y : Text), splitAtSubFuel pat f l = some (x, y) → l = x ++ pat ++ y := by
  intro f
  induction f with
  | zero => intro l x y h; simp [splitAtSubFuel] at h
  | succ f ih =>
    intro l x y h
    cases l with
    | nil => simp [splitAtSubFuel] at h
    | cons c cs =>
      simp only [splitAtSubFuel] at h
      split at h
      · rename_i hpre
        obtain ⟨rfl, rfl⟩ := by simpa using h
        have := isPre_eq_append hpre
        simpa using this
      · cases hrec : splitAtSubFuel pat f cs with
        | none => rw [hrec] at h; simp at h
        | some pr =>
          obtain ⟨x2, y2⟩ := pr
          rw [hrec] at h
          obtain ⟨rfl, rfl⟩ := by simpa using h
          have := ih cs x2 y2 hrec
          simp [this]

theorem splitAtSubFuel_first {pat : Text} (hp : pat ≠ []) :
    ∀ (x : Text) (y : Text) (f : Nat),
      (∀ i < x.length, isPre pat ((x ++ (pat ++ y)).drop i) = false) →
      (x ++ (pat ++ y)).length ≤ f →
      splitAtSubFuel pat f (x ++ (pat ++ y)) = some (x, y) := by
  intro x
  induction x with
  | nil =>
    intro y f _ hf
    cases pat with
    | nil => exact absurd rfl hp
    | cons p0 pt =>
      cases f with
      | zero => simp at hf
      | succ g =>
        have hpre : isPre (p0 :: pt) (p0 :: (pt ++ y)) = true :=
          isPre_append_self (p0 :: pt) y
        have hdrop : List.drop (p0 :: pt).length (p0 :: (pt ++ y)) = y := by
          simp [drop_len_append (p0 :: pt) y]
        simp [splitAtSubFuel, hpre, hdrop]
  | cons c cs ih =>
    intro y f hno hf
    cases f with
    | zero => simp at hf
    | succ g =>
      have h0 : isPre pat (c :: (cs ++ (pat ++ y))) = false := by simpa using hno 0 (by simp)
      have hih := ih y g (fun i hi => by simpa using hno (i + 1) (by simp; omega))
          (by simpa using Nat.le_of_succ_le_succ hf)
      simp [splitAtSubFuel, h0, hih]

theorem splitAtSub_first {pat : Text} (hp : pat ≠ []) (x y : Text)
    (h : ∀ i < x.length, isPre pat ((x ++ (pat ++ y)).drop i) = false) :
    splitAtSub pat (x ++ (pat ++ y)) = some (x, y) :=
  splitAtSubFuel_first hp x y (x ++ (pat ++ y)).length h le_rfl

theorem splitAtSub_shape {pat l x y : Text} (h : splitAtSub pat l = some (x, y)) :
    l = x ++ pat ++ y :=
  splitAtSubFuel_shape l.length l x y h

theorem drop_len_append_cons (w : Text) (x : Char) (r : Text) :
    (w ++ x :: r).drop (w.length + 1) = r := by
  induction w with
  | nil => simp
  | cons c cs ih => simp [ih]

theorem exampleStep_consuming : Consuming exampleStep := by
  intro d l out s2 rest h
  simp only [exampleStep] at h
  split at h
  · rename_i hpre
    split at h
    · exact absurd h (by simp)
    · split at h
      · obtain ⟨-, -, rfl⟩ := by simpa using h.symm
        have h9 : exampleOpen.length ≤ l.length := isPre_length hpre
        have he : exampleOpen.length = 9 := rfl
        simp only [List.length_drop]
        omega
      · exact absurd h (by simp)
  · exact absurd h (by simp)

theorem mermaidStep_consuming : Consuming mermaidStep := by
  intro blocks l out s2 rest h
  simp only [mermaidStep] at h
  split at h
  · rename_i hpre
    cases hsp : splitAtSub fenceT (l.drop mermaidOpen.length) with
    | none => rw [hsp] at h; simp at h
    | some pr =>
      obtain ⟨body, rest2⟩ := pr
      rw [hsp] at h
      obtain ⟨-, -, rfl⟩ := by simpa using h.symm
      have h11 : mermaidOpen.length ≤ l.length := isPre_length hpre
      have he : mermaidOpen.length = 11 := rfl
      have hsh := splitAtSub_shape hsp
      have hlen : (l.drop mermaidOpen.length).length =
          body.length + (fenceT.length + rest.length) := by
        rw [hsh]; simp
      have hf3 : fenceT.length = 3 := rfl
      rw [List.length_drop] at hlen
      omega
  · exact absurd h (by simp)

theorem codeStep_consuming (hl : Text → Text → Option Text) : Consuming (codeStep hl) := by
  intro u l out s2 rest h
  simp only [codeStep] at h
  split at h
  · rename_i hpre
    split at h
    · cases hsp : splitAtSub fenceT
          ((l.drop fenceT.length).drop
            (((l.drop fenceT.length).takeWhile isWordChar).length + 1)) with
      | none => rw [hsp] at h; simp at h
      | some pr =>
        obtain ⟨body, rest2⟩ := pr
        rw [hsp] at h
        obtain ⟨-, -, rfl⟩ := by simpa using h.symm
        have h3 : fenceT.length ≤ l.length := isPre_length hpre
        have he : fenceT.length = 3 := rfl
        have hsh := splitAtSub_shape hsp
        have hlen := congrArg List.length hsh
        simp only [List.length_drop, List.length_append] at hlen
        rw [he] at hlen h3
        omega
    · exact absurd h (by simp)
  · exact absurd h (by simp)

theorem exampleStep_matches (d : List (Text × Text)) (ds rest : Text)
    (hds : ∀ c ∈ ds, Char.isDigit c = true) (hne : ds ≠ []) :
    exampleStep d (exampleOpen ++ (ds ++ ']' :: rest)) =
      some (blank2 ++ (examplePlaceholderPre ++ ds) ++ blank2,
            dictInsert d (examplePlaceholderPre ++ ds) (kindExamplePre ++ ds),
            rest) := by
  have hpre := isPre_append_self exampleOpen (ds ++ ']' :: rest)
  have hdrop := drop_len_append exampleOpen (ds ++ ']' :: rest)
  have htw : ((ds ++ ']' :: rest).takeWhile Char.isDigit) = ds :=
    takeWhile_append_stop ds ']' rest hds (by decide)
  have hdrop2 := drop_len_append ds (']' :: rest)
  have hr := drop_len_append_cons ds ']' rest
  simp [exampleStep, hpre, hdrop, htw, hdrop2, hr, isEmpty_false_of_ne hne, isPre]

theorem mermaidStep_matches (blocks : List Text) (body rest : Text)
    (hbody : ∀ i < body.length, isPre fenceT ((body ++ (fenceT ++ rest)).drop i) = false) :
    mermaidStep blocks (mermaidOpen ++ (body ++ (fenceT ++ rest))) =
      some (blank2 ++ (mermaidPlaceholderPre ++ natText blocks.length) ++ blank2,
            blocks ++ [body], rest) := by
  have hpre := isPre_append_self mermaidOpen (body ++ (fenceT ++ rest))
  have hdrop := drop_len_append mermaidOpen (body ++ (fenceT ++ rest))
  have hsp := splitAtSub_first (show fenceT ≠ [] by decide) body rest hbody
  simp [mermaidStep, hpre, hdrop, hsp]

theorem codeStep_matches (hl : Text → Text → Option Text) (lang code rest : Text)
    (hw : ∀ c ∈ lang, isWordChar c = true) (hne : lang ≠ [])
    (hcode : ∀ i < code.length, isPre fenceT ((code ++ (fenceT ++ rest)).drop i) = false) :
    codeStep hl () (fenceT ++ (lang ++ '\n' :: (code ++ (fenceT ++ rest)))) =
      some (highlightMatch hl (some lang) code, (), rest) := by
  have hpre := isPre_append_self fenceT (lang ++ '\n' :: (code ++ (fenceT ++ rest)))
  have hdrop := drop_len_append fenceT (lang ++ '\n' :: (code ++ (fenceT ++ rest)))
  have htw : ((lang ++ '\n' :: (code ++ (fenceT ++ rest))).takeWhile isWordChar) = lang :=
    takeWhile_append_stop lang '\n' _ hw (by decide)
  have hd1 := drop_len_append lang ('\n' :: (code ++ (fenceT ++ rest)))
  have hd2 := drop_len_append_cons lang '\n' (code ++ (fenceT ++ rest))
  have hsp := splitAtSub_first (show fenceT ≠ [] by decide) code rest hcode
  simp [codeStep, hpre, hdrop, htw, hd1, hd2, hsp, isEmpty_false_of_ne hne, isPre]

/-! ### Support lemmas for url section names (C10) -/

theorem dropWhile_head_false {q : Char → Bool} :
    ∀ (l : Text) (c : Char), (l.dropWhile q).head? = some c → q c = false := by
  intro l
  induction l with
  | nil => intro c h; simp [List.dropWhile] at h
  | cons x xs ih =>
    intro c h
    rw [List.dropWhile_cons] at h
    split at h
    · exact ih c h
    · rename_i hx
      simp only [List.head?_cons, Option.some.injEq] at h
      subst h
      simpa using hx

theorem splitOnChar_cons (sep c : Char) (cs : Text) :
    splitOnChar sep (c :: cs) =
      match splitOnChar sep cs with
      | [] => [[]]
      | h :: t => if (c == sep) = true then [] :: h :: t else (c :: h) :: t := rfl

theorem splitOnChar_ne_nil (sep : Char) : ∀ (t : Text), splitOnChar sep t ≠ [] := by
  intro t
  induction t with
  | nil => simp [splitOnChar]
  | cons c cs ih =>
    simp only [splitOnChar]
    cases hs : splitOnChar sep cs with
    | nil => exact absurd hs ih
    | cons h tl =>
      by_cases hc : (c == sep) = true <;> simp [hc]

theorem getLastD_ne_nil_of_last_ne {sep : Char} :
    ∀ (t : Text), t ≠ [] → t.getLast? ≠ some sep → (splitOnChar sep t).getLastD [] ≠ [] := by
  intro t
  induction t with
  | nil => intro h; exact absurd rfl h
  | cons c cs ih =>
    intro _ hlast
    cases cs with
    | nil =>
      have hc : ¬ (c == sep) = true := by
        intro hb
        exact hlast (by simp [beq_iff_eq.mp hb])
      simp [splitOnChar, hc]
    | cons d ds =>
      have hlast2 : (d :: ds).getLast? ≠ some sep := by
        rwa [List.getLast?_cons_cons] at hlast
      have hrec := ih (by simp) hlast2
      cases hs : splitOnChar sep (d :: ds) with
      | nil => exact absurd hs (splitOnChar_ne_nil sep (d :: ds))
      | cons h tl =>
        rw [hs] at hrec
        rw [splitOnChar_cons, hs]
        by_cases hc : (c == sep) = true
        · simpa [hc, List.getLast?_cons_cons] using hrec
        · cases tl with
          | nil => simp [hc]
          | cons u us =>
            simpa [hc, List.getLast?_cons_cons] using hrec

theorem normalizeUrlPath_last_ne_slash (p : Text) :
    (normalizeUrlPath p).getLast? ≠ some '/' := by
  unfold normalizeUrlPath
  intro h
  rw [List.getLast?_reverse] at h
  have := dropWhile_head_false ((p.dropWhile (fun c => c == '/')).reverse) '/' h
  simp at this

theorem lastUrlSegment_ne_nil {url : Text} (h : normalizeUrlPath url ≠ []) :
    lastUrlSegment url ≠ [] :=
  getLastD_ne_nil_of_last_ne (normalizeUrlPath url) h (normalizeUrlPath_last_ne_slash url)

/-! ### Support lemmas for the post sort (C5) -/

theorem lexLe_refl : ∀ (a : Text), lexLe a a = true := by
  intro a
  induction a with
  | nil => rfl
  | cons c cs ih => simp [lexLe, ih]

theorem lexLe_total : ∀ {a b : Text}, lexLe a b = false → lexLe b a = true := by
  intro a
  induction a with
  | nil => intro b h; simp [lexLe] at h
  | cons x xs ih =>
    intro b h
    cases b with
    | nil => rfl
    | cons y ys =>
      simp only [lexLe] at h ⊢
      by_cases hxy : x = y
      · subst hxy
        simp only [if_pos rfl] at h ⊢
        exact ih h
      · rw [if_neg hxy] at h
        rw [if_neg (Ne.symm hxy)]
        have hnx : ¬ x < y := by simpa using h
        have : y < x := by
          rcases lt_trichotomy x y with h1 | h1 | h1
          · exact absurd h1 hnx
          · exact absurd h1 hxy
          · exact h1
        simpa using this

theorem lexLe_trans : ∀ {a b c : Text}, lexLe a b = true → lexLe b c = true → lexLe a c = true := by
  intro a
  induction a with
  | nil => intro b c _ _; rfl
  | cons x xs ih =>
    intro b c hab hbc
    cases b with
    | nil => simp [lexLe] at hab
    | cons y ys =>
      cases c with
      | nil => simp [lexLe] at hbc
      | cons z zs =>
        simp only [lexLe] at hab hbc ⊢
        by_cases hxy : x = y
        · subst hxy
          rw [if_pos rfl] at hab
          by_cases hyz : x = z
          · subst hyz
            rw [if_pos rfl] at hbc ⊢
            exact ih hab hbc
          · rw [if_neg hyz] at hbc ⊢
            exact hbc
        · rw [if_neg hxy] at hab
          have hlt : x < y := by simpa using hab
          by_cases hyz : y = z
          · subst hyz
            rw [if_neg hxy]
            simpa using hlt
          · rw [if_neg hyz] at hbc
            have hlt2 : y < z := by simpa using hbc
            have hxz : x < z := lt_trans hlt hlt2
            rw [if_neg (ne_of_lt hxz)]
            simpa using hxz

theorem mem_insertPostDesc (p : PostRec) :
    ∀ (l : List PostRec) (z : PostRec), z ∈ insertPostDesc p l → z = p ∨ z ∈ l := by
  intro l
  induction l with
  | nil =>
    intro z hz
    simp only [insertPostDesc, List.mem_singleton] at hz
    exact Or.inl hz
  | cons q qs ih =>
    intro z hz
    simp only [insertPostDesc] at hz
    split at hz
    · rcases List.mem_cons.mp hz with h1 | h1
      · exact Or.inl h1
      · exact Or.inr h1
    · rcases List.mem_cons.mp hz with h1 | h1
      · exact Or.inr (by simp [h1])
      · rcases ih z h1 with h2 | h2
        · exact Or.inl h2
        · exact Or.inr (by simp [h2])

theorem pairwise_insertPostDesc (p : PostRec) :
    ∀ (l : List PostRec), List.Pairwise descBy l →
      List.Pairwise descBy (insertPostDesc p l) := by
  intro l
  induction l with
  | nil => intro _; simp [insertPostDesc]
  | cons q qs ih =>
    intro hp
    rw [List.pairwise_cons] at hp
    obtain ⟨hq, hqs⟩ := hp
    by_cases hle : lexLe q.date p.date = true
    · simp only [insertPostDesc, if_pos hle]
      rw [List.pairwise_cons]
      refine ⟨?_, ?_⟩
      · intro z hz
        rcases List.mem_cons.mp hz with rfl | hz2
        · exact hle
        · exact lexLe_trans (hq z hz2) hle
      · rw [List.pairwise_cons]
        exact ⟨hq, hqs⟩
    · simp only [insertPostDesc, if_neg hle]
      rw [List.pairwise_cons]
      refine ⟨?_, ih hqs⟩
      intro z hz
      rcases mem_insertPostDesc p qs z hz with rfl | hz2
      · exact lexLe_total (by simpa using hle)
      · exact hq z hz2

theorem sortPostsDesc_pairwise : ∀ (l : List PostRec), List.Pairwise descBy (sortPostsDesc l) := by
  intro l
  induction l with
  | nil => simp [sortPostsDesc]
  | cons x xs ih =>
    have : sortPostsDesc (x :: xs) = insertPostDesc x (sortPostsDesc xs) := rfl
    rw [this]
    exact pairwise_insertPostDesc x (sortPostsDesc xs) ih

theorem insert_split (p : PostRec) :
    ∀ (l : List PostRec), ∃ l1 l2, l = l1 ++ l2 ∧ insertPostDesc p l = l1 ++ p :: l2 ∧
      ∀ q ∈ l1, lexLe q.date p.date = false := by
  intro l
  induction l with
  | nil => exact ⟨[], [], rfl, rfl, by simp⟩
  | cons q qs ih =>
    by_cases hle : lexLe q.date p.date = true
    · exact ⟨[], q :: qs, rfl, by simp [insertPostDesc, hle], by simp⟩
    · obtain ⟨l1, l2, hs, hi, hq⟩ := ih
      refine ⟨q :: l1, l2, by simp [hs], by simp [insertPostDesc, hle, hi], ?_⟩
      intro z hz
      rcases List.mem_cons.mp hz with rfl | hz2
      · simpa using hle
      · exact hq z hz2

theorem sublist_of_disjoint_left (P : PostRec → Prop) :
    ∀ (A : List PostRec) {sub B : List PostRec},
      List.Sublist sub (A ++ B) → (∀ x ∈ sub, P x) → (∀ y ∈ A, ¬ P y) →
      List.Sublist sub B := by
  intro A
  induction A with
  | nil =>
    intro sub B h _ _
    simpa using h
  | cons y A2 ih =>
    intro sub B h hsub hA
    rw [List.cons_append] at h
    cases h with
    | cons _ h2 =>
      exact ih h2 hsub (fun z hz => hA z (by simp [hz]))
    | cons₂ _ h2 =>
      exact absurd (hsub y (by simp)) (hA y (by simp))

theorem filter_date_sublist :
    ∀ (l : List PostRec) (d : Text),
      List.Sublist (l.filter (fun p => p.date == d)) (sortPostsDesc l) := by
  intro l d
  induction l with
  | nil => simp [sortPostsDesc]
  | cons x xs ih =>
    have hsort : sortPostsDesc (x :: xs) = insertPostDesc x (sortPostsDesc xs) := rfl
    rw [hsort]
    obtain ⟨l1, l2, hs, hi, hq⟩ := insert_split x (sortPostsDesc xs)
    by_cases hx : (x.date == d) = true
    · rw [List.filter_cons_of_pos (by simpa using hx)]
      have hsub2 : List.Sublist (xs.filter (fun p => p.date == d)) l2 := by
        apply sublist_of_disjoint_left (fun z => (z.date == d) = true) l1
        · rw [← hs]; exact ih
        · intro z hz
          exact (List.mem_filter.mp hz).2
        · intro y hy hPy
          have h1 : y.date = d := beq_iff_eq.mp hPy
          have h2 : x.date = d := beq_iff_eq.mp hx
          have hcontra := hq y hy
          rw [h1, ← h2] at hcontra
          exact absurd (lexLe_refl x.date) (by simp [hcontra])
      rw [hi]
      exact (hsub2.cons₂ x).trans (List.sublist_append_right l1 (x :: l2))
    · rw [List.filter_cons_of_neg (by simpa using hx)]
      rw [hi]
      exact (hs ▸ ih).trans ((List.sublist_cons_self x l2).append_left l1)

/-! ### Support lemmas for the config merge (C9) -/

theorem mergeEntries_nil (t : Entries) : mergeEntries t .nil = .ok t := rfl

theorem mergeEntries_atom_present {t : Entries} {k : String} {val : Val}
    (h : lookupE t k = some val) (a : Nat) (rest : Entries) :
    mergeEntries t (.cons k (.atom a) rest) = mergeEntries t rest := by
  simp only [mergeEntries, h]

theorem mergeEntries_atom_absent {t : Entries} {k : String} (h : lookupE t k = none)
    (a : Nat) (rest : Entries) :
    mergeEntries t (.cons k (.atom a) rest) = mergeEntries (appendE t k (.atom a)) rest := by
  simp only [mergeEntries, h]

theorem mergeEntries_dict_present {t : Entries} {k : String} {tn : Entries}
    (h : lookupE t k = some (.dict tn)) (d rest : Entries) :
    mergeEntries t (.cons k (.dict d) rest) =
      match mergeEntries tn d with
      | .ok tn2 => mergeEntries (setE t k (.dict tn2)) rest
      | .error e => .error e := by
  simp only [mergeEntries, h]

theorem mergeEntries_dict_atom {t : Entries} {k : String} {a : Nat}
    (h : lookupE t k = some (.atom a)) (d rest : Entries) :
    mergeEntries t (.cons k (.dict d) rest) =
      if isEmptyE d then mergeEntries t rest else .error .attrError := by
  simp only [mergeEntries, h]

theorem mergeEntries_dict_absent {t : Entries} {k : String} (h : lookupE t k = none)
    (d rest : Entries) :
    mergeEntries t (.cons k (.dict d) rest) =
      match mergeEntries .nil d with
      | .ok tn2 => mergeEntries (appendE t k (.dict tn2)) rest
      | .error e => .error e := by
  simp only [mergeEntries, h]

theorem lookupE_appendE : ∀ (t : Entries) (k : String) (v : Val) (k2 : String),
    lookupE (appendE t k v) k2 =
      match lookupE t k2 with
      | some w => some w
      | none => if (k == k2) = true then some v else none
  | .nil, k, v, k2 => by simp [appendE, lookupE]
  | .cons k3 v3 rest, k, v, k2 => by
    simp only [appendE, lookupE]
    by_cases h : (k3 == k2) = true
    · simp [h]
    · simp [h, lookupE_appendE rest k v k2]

theorem lookupE_setE_self : ∀ (t : Entries) (k : String) (w : Val),
    lookupE t k = some w → ∀ (v : Val), lookupE (setE t k v) k = some v
  | .nil, k, w => by intro h; simp [lookupE] at h
  | .cons k3 v3 rest, k, w => by
    intro h v
    simp only [setE]
    by_cases hk : (k3 == k) = true
    · simp [lookupE, hk]
    · simp only [lookupE, hk] at h
      simp [lookupE, hk, lookupE_setE_self rest k w h v]

theorem lookupE_setE_ne : ∀ (t : Entries) (k k2 : String), (k == k2) = false → ∀ (v : Val),
    lookupE (setE t k v) k2 = lookupE t k2
  | .nil, k, k2 => by intro _ v; simp [setE]
  | .cons k3 v3 rest, k, k2 => by
    intro hne v
    simp only [setE]
    by_cases hk : (k3 == k) = true
    · have h32 : (k3 == k2) = false := by
        rw [beq_iff_eq.mp hk]
        exact hne
      simp [lookupE, hk, h32]
    · simp [lookupE, hk, lookupE_setE_ne rest k k2 hne v]

theorem getPath_dict_cons (t : Entries) (k : String) (ks : List String) :
    getPath (.dict t) (k :: ks) =
      match lookupE t k with
      | some v => getPath v ks
      | none => none := rfl

theorem getPath_single_iff (t2 : Entries) (k : String) (w : Val) :
    getPath (.dict t2) [k] = some w ↔ lookupE t2 k = some w := by
  rw [getPath_dict_cons]
  cases hl : lookupE t2 k with
  | none => simp
  | some v => simp [getPath]

theorem preservesLeaves_trans {a b c : Entries} (h1 : PreservesLeaves a b)
    (h2 : PreservesLeaves b c) : PreservesLeaves a c :=
  fun path n hp => h2 path n (h1 path n hp)

theorem preservesKeys_trans {a b c : Entries} (h1 : PreservesKeys a b)
    (h2 : PreservesKeys b c) : PreservesKeys a c := by
  intro k v h
  obtain ⟨w, hw⟩ := h1 k v h
  exact h2 k w hw

theorem preservesLeaves_appendE (t : Entries) (k : String) (v : Val) :
    PreservesLeaves t (appendE t k v) := by
  intro path n hp
  cases path with
  | nil => simp [getPath] at hp
  | cons k2 ks =>
    rw [getPath_dict_cons] at hp ⊢
    cases hl : lookupE t k2 with
    | none => rw [hl] at hp; exact absurd hp (by simp)
    | some v2 =>
      rw [hl] at hp
      rw [lookupE_appendE, hl]
      exact hp

theorem preservesKeys_appendE (t : Entries) (k : String) (v : Val) :
    PreservesKeys t (appendE t k v) := by
  intro k2 w h
  rw [lookupE_appendE, h]
  exact ⟨w, rfl⟩

theorem preservesLeaves_setE_dict {t : Entries} {k : String} {tn tn2 : Entries}
    (hlook : lookupE t k = some (.dict tn)) (hinner : PreservesLeaves tn tn2) :
    PreservesLeaves t (setE t k (.dict tn2)) := by
  intro path n hp
  cases path with
  | nil => simp [getPath] at hp
  | cons k2 ks =>
    rw [getPath_dict_cons] at hp ⊢
    by_cases hk : (k == k2) = true
    · have hk2 : k2 = k := (beq_iff_eq.mp hk).symm
      subst hk2
      rw [hlook] at hp
      rw [lookupE_setE_self t k2 (.dict tn) hlook (.dict tn2)]
      exact hinner ks n hp
    · rw [lookupE_setE_ne t k k2 (by simpa using hk) (.dict tn2)]
      exact hp

theorem preservesKeys_setE {t : Entries} {k : String} (w : Val)
    (hlook : lookupE t k = some w) (v : Val) : PreservesKeys t (setE t k v) := by
  intro k2 w2 h
  by_cases hk : (k == k2) = true
  · have hk2 : k2 = k := (beq_iff_eq.mp hk).symm
    subst hk2
    exact ⟨v, lookupE_setE_self t k2 w hlook v⟩
  · rw [lookupE_setE_ne t k k2 (by simpa using hk) v]
    exact ⟨w2, h⟩

theorem mergeEntries_preserves :
    ∀ (t s : Entries), ∀ (t2 : Entries), mergeEntries t s = .ok t2 →
      PreservesLeaves t t2 ∧ PreservesKeys t t2 ∧ FillsAtoms t s t2 := by
  intro t s
  induction t, s using mergeEntries.induct
  next t =>
    intro t2 h
    rw [mergeEntries_nil] at h
    obtain rfl : t = t2 := by simpa using h
    refine ⟨fun path n hp => hp, fun k v h2 => ⟨v, h2⟩, ?_⟩
    intro k a _ hs
    simp [lookupE] at hs
  next t k a rest val hlook ih =>
    intro t2 h
    rw [mergeEntries_atom_present hlook a rest] at h
    obtain ⟨hPL, hPK, hFA⟩ := ih t2 h
    refine ⟨hPL, hPK, ?_⟩
    intro k2 a2 hnone hs
    simp only [lookupE] at hs
    by_cases hk : (k == k2) = true
    · have hk2 : k2 = k := (beq_iff_eq.mp hk).symm
      subst hk2
      rw [hlook] at hnone
      exact absurd hnone (by simp)
    · rw [if_neg (by simpa using hk)] at hs
      exact hFA k2 a2 hnone hs
  next t k a rest hlook ih =>
    intro t2 h
    rw [mergeEntries_atom_absent hlook a rest] at h
    obtain ⟨hPL, hPK, hFA⟩ := ih t2 h
    refine ⟨preservesLeaves_trans (preservesLeaves_appendE t k (.atom a)) hPL,
            preservesKeys_trans (preservesKeys_appendE t k (.atom a)) hPK, ?_⟩
    intro k2 a2 hnone hs
    simp only [lookupE] at hs
    by_cases hk : (k == k2) = true
    · have hk2 : k2 = k := (beq_iff_eq.mp hk).symm
      subst hk2
      rw [if_pos hk] at hs
      have ha : a = a2 := by simpa using hs
      subst ha
      have h1 : lookupE (appendE t k2 (.atom a)) k2 = some (.atom a) := by
        rw [lookupE_appendE, hnone]
        simp
      have h2 := hPL [k2] a ((getPath_single_iff _ k2 (.atom a)).mpr h1)
      exact (getPath_single_iff t2 k2 (.atom a)).mp h2
    · rw [if_neg (by simpa using hk)] at hs
      have h1 : lookupE (appendE t k (.atom a)) k2 = none := by
        rw [lookupE_appendE, hnone]
        simp [hk]
      exact hFA k2 a2 h1 hs
  next t k d rest tn hlook tn2 hmerge ih1 ih2 =>
    intro t2 h
    rw [mergeEntries_dict_present hlook d rest, hmerge] at h
    obtain ⟨hPL1, hPK1, hFA1⟩ := ih1 tn2 hmerge
    obtain ⟨hPL, hPK, hFA⟩ := ih2 t2 h
    refine ⟨preservesLeaves_trans (preservesLeaves_setE_dict hlook hPL1) hPL,
            preservesKeys_trans (preservesKeys_setE (.dict tn) hlook (.dict tn2)) hPK, ?_⟩
    intro k2 a2 hnone hs
    simp only [lookupE] at hs
    by_cases hk : (k == k2) = true
    · have hk2 : k2 = k := (beq_iff_eq.mp hk).symm
      subst hk2
      rw [hlook] at hnone
      exact absurd hnone (by simp)
    · rw [if_neg (by simpa using hk)] at hs
      have h1 : lookupE (setE t k (.dict tn2)) k2 = none := by
        rw [lookupE_setE_ne t k k2 (by simpa using hk) (.dict tn2)]
        exact hnone
      exact hFA k2 a2 h1 hs
  next t k d rest tn hlook e hmerge ih1 =>
    intro t2 h
    rw [mergeEntries_dict_present hlook d rest, hmerge] at h
    simp at h
  next t k d rest a hlook hempty ih =>
    intro t2 h
    rw [mergeEntries_dict_atom hlook d rest, if_pos hempty] at h
    obtain ⟨hPL, hPK, hFA⟩ := ih t2 h
    refine ⟨hPL, hPK, ?_⟩
    intro k2 a2 hnone hs
    simp only [lookupE] at hs
    by_cases hk : (k == k2) = true
    · have hk2 : k2 = k := (beq_iff_eq.mp hk).symm
      subst hk2
      rw [hlook] at hnone
      exact absurd hnone (by simp)
    · rw [if_neg (by simpa using hk)] at hs
      exact hFA k2 a2 hnone hs
  next t k d rest a hlook hnotempty =>
    intro t2 h
    rw [mergeEntries_dict_atom hlook d rest, if_neg hnotempty] at h
    simp at h
  next t k d rest hlook tn2 hmerge ih1 ih2 =>
    intro t2 h
    rw [mergeEntries_dict_absent hlook d rest, hmerge] at h
    obtain ⟨hPL, hPK, hFA⟩ := ih2 t2 h
    refine ⟨preservesLeaves_trans (preservesLeaves_appendE t k (.dict tn2)) hPL,
            preservesKeys_trans (preservesKeys_appendE t k (.dict tn2)) hPK, ?_⟩
    intro k2 a2 hnone hs
    simp only [lookupE] at hs
    by_cases hk : (k == k2) = true
    · rw [if_pos hk] at hs
      exact absurd hs (by simp)
    · rw [if_neg (by simpa using hk)] at hs
      have h1 : lookupE (appendE t k (.dict tn2)) k2 = none := by
        rw [lookupE_appendE, hnone]
        simp [hk]
      exact hFA k2 a2 h1 hs
  next t k d rest hlook e hmerge ih1 =>
    intro t2 h
    rw [mergeEntries_dict_absent hlook d rest, hmerge] at h
    simp at h

/-! ### Claim theorems -/

/-- C1: the claim's headline case fails on the code.  A content file parsed
with `is_post = True` whose frontmatter omits `toc` and whose path matches no
configured rule resolves `tableOfContents` to `false`, not `true`: the
hardcoded post default `is_post` in `post.get('toc', path_defaults.get('toc',
is_post))` is dead code, because `_get_path_defaults` unconditionally seeds
`'toc': False` before applying rules.  This theorem evaluates the embedded
flag resolution at that failing input. -/
theorem C1_toc_post_default_unreachable :
    (resolveFeatureFlags emptyFrontmatter (getPathDefaults [] sampleFilePath) true).toc = false := by
  rfl

/-- C2 counterexample: a document holding the posts include marker twice.
Protection records exactly one token-to-kind entry, but expansion replaces
every occurrence of the shared placeholder, so the final content holds the
resolved block twice — not once as the claim states. -/
theorem C2_counterexample :
    (extractIncludeDirectives c2doc).2 = [(PLACEHOLDER_POSTS, kindPosts)]
    ∧ (processIncludeDirectives c2rendered [] emptyTmpl c2page).1 =
        c2rendered ++ (c2mid ++ c2rendered)
    ∧ countSub c2rendered (processIncludeDirectives c2rendered [] emptyTmpl c2page).1 = 2 := by
  refine ⟨by decide, by decide, by decide⟩

/-- C2 (amended): for a document with two include markers of the posts kind,
protection records exactly one token-to-kind mapping entry and replaces both
markers with the one shared placeholder; expansion renders one block and
substitutes it for every occurrence of the placeholder, so the final HTML
holds two copies of that one resolved block. -/
theorem C2_amended (a m b r rA : Text) (tC : PageData → Text) (page0 : PageData)
    (h1 : containsSub markerPostsTrim (a ++ markerPosts ++ m ++ markerPosts ++ b) = false)
    (h2 : ∀ i < a.length, isPre markerPosts ((a ++ markerPosts ++ m ++ markerPosts ++ b).drop i) = false)
    (h3 : ∀ i < m.length, isPre markerPosts ((m ++ markerPosts ++ b).drop i) = false)
    (h4 : ∀ i < b.length, isPre markerPosts (b.drop i) = false)
    (h5 : containsSub markerCategoryTrim (a ++ PLACEHOLDER_POSTS ++ m ++ PLACEHOLDER_POSTS ++ b) = false)
    (h6 : containsSub markerCategory (a ++ PLACEHOLDER_POSTS ++ m ++ PLACEHOLDER_POSTS ++ b) = false)
    (h7 : containsSub markerArchiveTrim (a ++ PLACEHOLDER_POSTS ++ m ++ PLACEHOLDER_POSTS ++ b) = false)
    (h8 : containsSub markerArchive (a ++ PLACEHOLDER_POSTS ++ m ++ PLACEHOLDER_POSTS ++ b) = false)
    (h9 : ∀ i < (a ++ PLACEHOLDER_POSTS ++ m ++ PLACEHOLDER_POSTS ++ b).length,
        isPre (paraWrap PLACEHOLDER_POSTS)
          ((a ++ PLACEHOLDER_POSTS ++ m ++ PLACEHOLDER_POSTS ++ b).drop i) = false)
    (h10 : ∀ i < a.length,
        isPre PLACEHOLDER_POSTS ((a ++ PLACEHOLDER_POSTS ++ m ++ PLACEHOLDER_POSTS ++ b).drop i) = false)
    (h11 : ∀ i < m.length,
        isPre PLACEHOLDER_POSTS ((m ++ PLACEHOLDER_POSTS ++ b).drop i) = false)
    (h12 : ∀ i < b.length, isPre PLACEHOLDER_POSTS (b.drop i) = false) :
    extractIncludeDirectives (a ++ markerPosts ++ m ++ markerPosts ++ b) =
        (a ++ PLACEHOLDER_POSTS ++ m ++ PLACEHOLDER_POSTS ++ b, [(PLACEHOLDER_POSTS, kindPosts)])
    ∧ (processIncludeDirectives r rA tC
          { page0 with content := a ++ PLACEHOLDER_POSTS ++ m ++ PLACEHOLDER_POSTS ++ b,
                       includeDirectives := [(PLACEHOLDER_POSTS, kindPosts)] }).1 =
        a ++ r ++ m ++ r ++ b := by
  constructor
  · have hin : containsSub markerPosts (a ++ (markerPosts ++ (m ++ (markerPosts ++ b)))) = true :=
      containsSub_mid markerPosts a (m ++ (markerPosts ++ b))
    have h1r : containsSub markerPostsTrim (a ++ (markerPosts ++ (m ++ (markerPosts ++ b)))) = false := by
      simpa [List.append_assoc] using h1
    have hid : pyReplace (a ++ markerPosts ++ m ++ markerPosts ++ b) markerPostsTrim PLACEHOLDER_POSTS
        = a ++ markerPosts ++ m ++ markerPosts ++ b :=
      pyReplace_id PLACEHOLDER_POSTS (fun i _ => containsSub_false_drop h1 i)
    have hidr : pyReplace (a ++ (markerPosts ++ (m ++ (markerPosts ++ b)))) markerPostsTrim
        PLACEHOLDER_POSTS = a ++ (markerPosts ++ (m ++ (markerPosts ++ b))) := by
      simpa [List.append_assoc] using hid
    have hrepl : pyReplace (a ++ markerPosts ++ m ++ markerPosts ++ b) markerPosts PLACEHOLDER_POSTS
        = a ++ PLACEHOLDER_POSTS ++ m ++ PLACEHOLDER_POSTS ++ b :=
      pyReplace_two PLACEHOLDER_POSTS (by decide) h2 h3 h4
    have hreplr : pyReplace (a ++ (markerPosts ++ (m ++ (markerPosts ++ b)))) markerPosts
        PLACEHOLDER_POSTS = a ++ (PLACEHOLDER_POSTS ++ (m ++ (PLACEHOLDER_POSTS ++ b))) := by
      simpa [List.append_assoc] using hrepl
    have h5r : containsSub markerCategoryTrim
        (a ++ (PLACEHOLDER_POSTS ++ (m ++ (PLACEHOLDER_POSTS ++ b)))) = false := by
      simpa [List.append_assoc] using h5
    have h6r : containsSub markerCategory
        (a ++ (PLACEHOLDER_POSTS ++ (m ++ (PLACEHOLDER_POSTS ++ b)))) = false := by
      simpa [List.append_assoc] using h6
    have h7r : containsSub markerArchiveTrim
        (a ++ (PLACEHOLDER_POSTS ++ (m ++ (PLACEHOLDER_POSTS ++ b)))) = false := by
      simpa [List.append_assoc] using h7
    have h8r : containsSub markerArchive
        (a ++ (PLACEHOLDER_POSTS ++ (m ++ (PLACEHOLDER_POSTS ++ b)))) = false := by
      simpa [List.append_assoc] using h8
    simp [extractIncludeDirectives, h1r, hin, hidr, hreplr, h5r, h6r, h7r, h8r]
  · have hpara : pyReplace (a ++ PLACEHOLDER_POSTS ++ m ++ PLACEHOLDER_POSTS ++ b)
        (paraWrap PLACEHOLDER_POSTS) r = a ++ PLACEHOLDER_POSTS ++ m ++ PLACEHOLDER_POSTS ++ b :=
      pyReplace_id r h9
    have hparar : pyReplace (a ++ (PLACEHOLDER_POSTS ++ (m ++ (PLACEHOLDER_POSTS ++ b))))
        (paraWrap PLACEHOLDER_POSTS) r =
        a ++ (PLACEHOLDER_POSTS ++ (m ++ (PLACEHOLDER_POSTS ++ b))) := by
      simpa [List.append_assoc] using hpara
    have hrepl2 : pyReplace (a ++ PLACEHOLDER_POSTS ++ m ++ PLACEHOLDER_POSTS ++ b)
        PLACEHOLDER_POSTS r = a ++ r ++ m ++ r ++ b :=
      pyReplace_two r (by decide) h10 h11 h12
    have hrepl2r : pyReplace (a ++ (PLACEHOLDER_POSTS ++ (m ++ (PLACEHOLDER_POSTS ++ b))))
        PLACEHOLDER_POSTS r = a ++ (r ++ (m ++ (r ++ b))) := by
      simpa [List.append_assoc] using hrepl2
    simp [processIncludeDirectives, processStep, replaceBoth, hparar, hrepl2r]

/-- C2 witness: the amended theorem applied at a concrete document. -/
theorem C2_witness :
    extractIncludeDirectives (c2a ++ markerPosts ++ c2mid ++ markerPosts ++ c2b) =
        (c2a ++ PLACEHOLDER_POSTS ++ c2mid ++ PLACEHOLDER_POSTS ++ c2b,
         [(PLACEHOLDER_POSTS, kindPosts)])
    ∧ (processIncludeDirectives c2rendered [] emptyTmpl
          { pageFixture [] [] none [] with
              content := c2a ++ PLACEHOLDER_POSTS ++ c2mid ++ PLACEHOLDER_POSTS ++ c2b,
              includeDirectives := [(PLACEHOLDER_POSTS, kindPosts)] }).1 =
        c2a ++ c2rendered ++ c2mid ++ c2rendered ++ c2b :=
  C2_amended c2a c2mid c2b c2rendered [] emptyTmpl (pageFixture [] [] none [])
    (by decide) (by decide) (by decide) (by decide) (by decide) (by decide)
    (by decide) (by decide) (by decide) (by decide) (by decide) (by decide)

/-- C3 counterexample: two occurrences of the same shortcode id produce the
same placeholder token twice (keyed by the captured id alone — the source has
no synthetic occurrence counter), and the directives dict holds one entry,
refuting "one distinct token per occurrence". -/
theorem C3_counterexample :
    (extractExampleShortcodes exDocA []).1 =
        blank2 ++ (examplePlaceholderPre ++ digits5) ++ blank2 ++ exSpacerA
          ++ (blank2 ++ (examplePlaceholderPre ++ digits5) ++ blank2)
    ∧ (extractExampleShortcodes exDocA []).2 =
        [(examplePlaceholderPre ++ digits5, kindExamplePre ++ digits5)]
    ∧ countSub (examplePlaceholderPre ++ digits5) (extractExampleShortcodes exDocA []).1 = 2 := by
  refine ⟨by decide, by decide, by decide⟩

/-- Whether `exampleStep` fires depends only on the text, never on the
directives dict carried as state: a non-match at one state is a non-match at
every state. -/
theorem exampleStep_none_state (d d2 : List (Text × Text)) {l : Text}
    (h : exampleStep d l = none) : exampleStep d2 l = none := by
  simp only [exampleStep] at h ⊢
  by_cases h1 : isPre exampleOpen l = true
  · rw [if_pos h1] at h ⊢
    by_cases h2 : ((l.drop exampleOpen.length).takeWhile Char.isDigit).isEmpty = true
    · rw [if_pos h2]
    · rw [if_neg h2] at h ⊢
      by_cases h3 : isPre [']']
          ((l.drop exampleOpen.length).drop
            ((l.drop exampleOpen.length).takeWhile Char.isDigit).length) = true
      · rw [if_pos h3] at h
        exact absurd h (by simp)
      · rw [if_neg h3]
  · rw [if_neg h1]

/-- Recording the same key/value pair twice in the directives dict is the same
as recording it once: same-id occurrences yield one mapping entry. -/
theorem dictInsert_idem (d : List (Text × Text)) (k v : Text) :
    dictInsert (dictInsert d k v) k v = dictInsert d k v := by
  unfold dictInsert
  by_cases h : d.any (fun p => p.1 == k) = true
  · rw [if_pos h]
    have hkeys : ((d.map (fun p => if p.1 == k then (p.1, v) else p)).any
        (fun p => p.1 == k)) = true := by
      rw [List.any_map]
      have hfun : ((fun p : Text × Text => p.1 == k) ∘
          (fun p : Text × Text => if p.1 == k then (p.1, v) else p))
          = (fun p : Text × Text => p.1 == k) := by
        funext p
        by_cases hp : (p.1 == k) = true <;> simp [Function.comp, hp]
      rw [hfun]
      exact h
    rw [if_pos hkeys, List.map_map]
    have hff : ((fun p : Text × Text => if p.1 == k then (p.1, v) else p) ∘
        (fun p : Text × Text => if p.1 == k then (p.1, v) else p))
        = (fun p : Text × Text => if p.1 == k then (p.1, v) else p) := by
      funext p
      by_cases hp : (p.1 == k) = true <;> simp [Function.comp, hp]
    rw [hff]
  · rw [if_neg h]
    have hkeys : ((d ++ [(k, v)]).any (fun p => p.1 == k)) = true := by
      simp [List.any_append]
    rw [if_pos hkeys, List.map_append]
    have hmap : d.map (fun p => if p.1 == k then (p.1, v) else p) = d := by
      have hnone : ∀ p ∈ d, ¬ (p.1 == k) = true := by
        intro p hp hpk
        exact h (List.any_eq_true.mpr ⟨p, hp, hpk⟩)
      calc d.map (fun p => if p.1 == k then (p.1, v) else p)
            = d.map id := by
              apply List.map_congr_left
              intro p hp
              simp [hnone p hp]
          _ = d := List.map_id d
    rw [hmap]
    simp

/-- C3 (amended): for every text split as prefix `a`, two shortcodes
`[example:<ds1>]` and `[example:<ds2>]` with arbitrary nonempty digit ids,
middle `m` and suffix `b` (where `a`, `m`, `b` contain no shortcode match at
any position), and every initial directives dict, each occurrence is replaced
by the token `EXAMPLE_PLACEHOLDER_<id>` keyed by the captured id alone,
surrounded by blank lines, and the dict records placeholder → `example:<id>`
per occurrence; occurrences with the same id share one token and collapse to
one mapping entry (recording is idempotent), while distinct ids always yield
distinct tokens. -/
theorem C3_amended_tokens_keyed_by_id (a m b ds1 ds2 : Text)
    (d0 : List (Text × Text))
    (hd1 : ∀ c ∈ ds1, Char.isDigit c = true) (hne1 : ds1 ≠ [])
    (hd2 : ∀ c ∈ ds2, Char.isDigit c = true) (hne2 : ds2 ≠ [])
    (ha : ∀ i < a.length, exampleStep d0
        ((a ++ (exampleOpen ++ (ds1 ++ ']' ::
          (m ++ (exampleOpen ++ (ds2 ++ ']' :: b)))))).drop i) = none)
    (hm : ∀ i < m.length, exampleStep d0
        ((m ++ (exampleOpen ++ (ds2 ++ ']' :: b))).drop i) = none)
    (hb : ∀ i < b.length, exampleStep d0 (b.drop i) = none) :
    extractExampleShortcodes
        (a ++ (exampleOpen ++ (ds1 ++ ']' ::
          (m ++ (exampleOpen ++ (ds2 ++ ']' :: b)))))) d0 =
      (a ++ (blank2 ++ (examplePlaceholderPre ++ ds1) ++ blank2)
         ++ (m ++ ((blank2 ++ (examplePlaceholderPre ++ ds2) ++ blank2) ++ b)),
       dictInsert
         (dictInsert d0 (examplePlaceholderPre ++ ds1) (kindExamplePre ++ ds1))
         (examplePlaceholderPre ++ ds2) (kindExamplePre ++ ds2))
    ∧ (ds1 = ds2 →
        examplePlaceholderPre ++ ds1 = examplePlaceholderPre ++ ds2
        ∧ dictInsert
            (dictInsert d0 (examplePlaceholderPre ++ ds1)
              (kindExamplePre ++ ds1))
            (examplePlaceholderPre ++ ds2) (kindExamplePre ++ ds2) =
          dictInsert d0 (examplePlaceholderPre ++ ds1) (kindExamplePre ++ ds1))
    ∧ (ds1 ≠ ds2 →
        examplePlaceholderPre ++ ds1 ≠ examplePlaceholderPre ++ ds2) := by
  refine ⟨?_, ?_, ?_⟩
  · unfold extractExampleShortcodes scanText
    rw [scanFuel_skip exampleStep_consuming a
        (exampleOpen ++ (ds1 ++ ']' :: (m ++ (exampleOpen ++ (ds2 ++ ']' :: b)))))
        (a ++ (exampleOpen ++ (ds1 ++ ']' ::
          (m ++ (exampleOpen ++ (ds2 ++ ']' :: b)))))).length
        ha (exampleStep_matches d0 ds1 (m ++ (exampleOpen ++ (ds2 ++ ']' :: b)))
          hd1 hne1) le_rfl]
    rw [scanFuel_skip exampleStep_consuming m (exampleOpen ++ (ds2 ++ ']' :: b))
        (m ++ (exampleOpen ++ (ds2 ++ ']' :: b))).length
        (fun i hi => exampleStep_none_state d0 _ (hm i hi))
        (exampleStep_matches _ ds2 b hd2 hne2) le_rfl]
    rw [scanFuel_none b.length b (fun i hi => exampleStep_none_state d0 _ (hb i hi))]
    simp [List.append_assoc]
  · intro h12
    subst h12
    exact ⟨rfl, dictInsert_idem d0 _ _⟩
  · intro h12 heq
    exact h12 (by simpa using heq)

/-- C3 witness: the amended theorem applied to a concrete document with the
ids 5 and 7, all hypotheses discharged by evaluation. -/
theorem C3_witness :
    extractExampleShortcodes
        (exSpacerA ++ (exampleOpen ++ (digits5 ++ ']' ::
          (exSpacerB ++ (exampleOpen ++ (digits7 ++ ']' :: c2mid)))))) [] =
      (exSpacerA ++ (blank2 ++ (examplePlaceholderPre ++ digits5) ++ blank2)
         ++ (exSpacerB ++
              ((blank2 ++ (examplePlaceholderPre ++ digits7) ++ blank2) ++ c2mid)),
       dictInsert
         (dictInsert [] (examplePlaceholderPre ++ digits5)
           (kindExamplePre ++ digits5))
         (examplePlaceholderPre ++ digits7) (kindExamplePre ++ digits7))
    ∧ examplePlaceholderPre ++ digits5 ≠ examplePlaceholderPre ++ digits7 := by
  have h := C3_amended_tokens_keyed_by_id exSpacerA exSpacerB c2mid digits5 digits7 []
    (by decide) (by decide) (by decide) (by decide)
    (by decide) (by decide) (by decide)
  exact ⟨h.1, h.2.2 (by decide)⟩

/-- C4: the Directive Expander's loop body (i) leaves content and page
untouched for a token whose kind is none of posts, category, archive or
`example:<id>`, (ii) replaces the paragraph-wrapped form of the token first —
a content equal to the wrapped token becomes exactly the resolved block, not
a paragraph-wrapped block — and (iii) also replaces the bare token with the
same resolved block. -/
theorem C4_two_pass_replacement :
    (∀ (rP rA : Text) (tC : PageData → Text) (content : Text) (page : PageData) (ph kind : Text),
        kind ≠ kindPosts → kind ≠ kindCategory → kind ≠ kindArchive →
        isPre kindExamplePre kind = false →
        processStep rP rA tC (content, page) (ph, kind) = (content, page))
    ∧ (∀ (rP rA : Text) (tC : PageData → Text) (page : PageData) (ph : Text),
        ph ≠ [] → (∀ i < rP.length, isPre ph (rP.drop i) = false) →
        processStep rP rA tC (paraWrap ph, page) (ph, kindPosts) = (rP, page))
    ∧ (∀ (rP rA : Text) (tC : PageData → Text) (page : PageData) (ph : Text),
        ph ≠ [] →
        processStep rP rA tC (ph, page) (ph, kindPosts) = (rP, page)) := by
  refine ⟨?_, ?_, ?_⟩
  · intro rP rA tC content page ph kind h1 h2 h3 h4
    simp [processStep, h1, h2, h3, h4]
  · intro rP rA tC page ph hne hnor
    have hinner : pyReplace (paraWrap ph) (paraWrap ph) rP = rP :=
      pyReplace_self rP (by simp [paraWrap])
    have houter : pyReplace rP ph rP = rP := pyReplace_id rP hnor
    simp [processStep, replaceBoth, hinner, houter]
  · intro rP rA tC page ph hne
    have hinner : pyReplace ph (paraWrap ph) rP = ph :=
      pyReplace_id rP (fun i _ =>
        isPre_false_of_length (by simp [paraWrap, List.length_drop]; omega))
    have houter : pyReplace ph ph rP = rP := pyReplace_self rP hne
    simp [processStep, replaceBoth, hinner, houter]

/-- C4 witness: the three clauses applied at concrete inputs. -/
theorem C4_witness :
    processStep c2rendered [] emptyTmpl (paraWrap PLACEHOLDER_POSTS, pageFixture [] [] none [])
        (PLACEHOLDER_POSTS, kindPosts) = (c2rendered, pageFixture [] [] none [])
    ∧ processStep c2rendered [] emptyTmpl (PLACEHOLDER_POSTS, pageFixture [] [] none [])
        (PLACEHOLDER_POSTS, kindPosts) = (c2rendered, pageFixture [] [] none [])
    ∧ processStep c2rendered [] emptyTmpl (c2mid, pageFixture [] [] none [])
        (PLACEHOLDER_POSTS, unknownKind) = (c2mid, pageFixture [] [] none []) := by
  have h := C4_two_pass_replacement
  exact ⟨h.2.1 c2rendered [] emptyTmpl (pageFixture [] [] none []) PLACEHOLDER_POSTS
            (by decide) (by decide),
         h.2.2 c2rendered [] emptyTmpl (pageFixture [] [] none []) PLACEHOLDER_POSTS (by decide),
         h.1 c2rendered [] emptyTmpl c2mid (pageFixture [] [] none []) PLACEHOLDER_POSTS
            unknownKind (by decide) (by decide) (by decide) (by decide)⟩

/-- C5: the Collection Store sort is descending by the `dateString` key under
lexical comparison (pairwise, for every collection list), the sort is stable
(the subsequence of posts with any fixed date survives as a sublist, i.e.
ties keep their discovery order), and the flattened all-posts view of a store
holding posts dated 2024-01-01, 2024-03-01, 2023-12-31 is ordered
2024-03-01, 2024-01-01, 2023-12-31. -/
theorem C5_sorted_descending_stable :
    (∀ l : List PostRec, List.Pairwise descBy (sortPostsDesc l))
    ∧ (∀ (l : List PostRec) (d : Text),
        List.Sublist (l.filter (fun p => p.date == d)) (sortPostsDesc l))
    ∧ getAllPosts demoStore = [postB, postA, postC] :=
  ⟨sortPostsDesc_pairwise, filter_date_sublist, by decide⟩

/-- General form of a scan whose first position matches and consumes the
whole text. -/
theorem scanText_head_match {σ : Type} {step : ScanStep σ} (hstep : Consuming step)
    {s s2 : σ} {out : Text} {m : Text} (hm : step s m = some (out, s2, [])) :
    scanText step m s = (out, s2) := by
  have h := scanFuel_skip hstep [] m m.length (fun i hi => absurd hi (by simp)) hm (by simp)
  simpa [scanText, scanFuel] using h

/-- C6: round trip of a text with exactly one diagram block.  Extraction
returns the body verbatim and the indexed placeholder (surrounded by blank
lines); restoration replaces the sole paragraph-wrapped placeholder of the
converted HTML by the fixed code-block shell carrying the
`language-mermaid` class and the raw body, and the result holds exactly one
such code element. -/
theorem C6_mermaid_round_trip (a body b c d : Text)
    (h1 : ∀ i < a.length,
        mermaidStep [] ((a ++ (mermaidOpen ++ (body ++ (fenceT ++ b)))).drop i) = none)
    (h2 : ∀ i < body.length, isPre fenceT ((body ++ (fenceT ++ b)).drop i) = false)
    (h3 : ∀ i < b.length, mermaidStep [body] (b.drop i) = none)
    (hc : ∀ i < c.length, isPre (mermaidPara 0) ((c ++ mermaidPara 0 ++ d).drop i) = false)
    (hd : ∀ i < d.length, isPre (mermaidPara 0) (d.drop i) = false)
    (hcc : ∀ i < (c ++ preOpenTag).length,
        isPre mermaidCodeTag
          (((c ++ preOpenTag) ++ mermaidCodeTag ++ (body ++ preCloseTags ++ d)).drop i) = false)
    (hcb : ∀ i < (body ++ preCloseTags ++ d).length,
        isPre mermaidCodeTag ((body ++ preCloseTags ++ d).drop i) = false) :
    extractMermaidBlocks (a ++ (mermaidOpen ++ (body ++ (fenceT ++ b)))) =
        (a ++ (blank2 ++ (mermaidPlaceholderPre ++ natText 0) ++ blank2) ++ b, [body])
    ∧ restoreMermaidBlocks (c ++ mermaidPara 0 ++ d) [body] = c ++ mermaidShell body ++ d
    ∧ countSub mermaidCodeTag (c ++ mermaidShell body ++ d) = 1 := by
  refine ⟨?_, ?_, ?_⟩
  · unfold extractMermaidBlocks scanText
    rw [scanFuel_skip mermaidStep_consuming a (mermaidOpen ++ (body ++ (fenceT ++ b)))
        (a ++ (mermaidOpen ++ (body ++ (fenceT ++ b)))).length h1
        (mermaidStep_matches [] body b h2) le_rfl]
    simp [scanFuel_none b.length b h3]
  · have h := pyReplace_one (mermaidShell body) (show mermaidPara 0 ≠ [] by decide) hc hd
    have hr : pyReplace (c ++ (mermaidPara 0 ++ d)) (mermaidPara 0) (mermaidShell body) =
        c ++ (mermaidShell body ++ d) := by
      simpa [List.append_assoc] using h
    simp [restoreMermaidBlocks, hr]
  · have hsplit : ("<pre><code class=\"language-mermaid\">".data : Text) =
        preOpenTag ++ mermaidCodeTag := by decide
    have hclose : ("</code></pre>".data : Text) = preCloseTags := rfl
    have hdecomp : c ++ mermaidShell body ++ d =
        (c ++ preOpenTag) ++ mermaidCodeTag ++ (body ++ preCloseTags ++ d) := by
      unfold mermaidShell
      rw [hsplit, hclose]
      simp [List.append_assoc]
    rw [hdecomp]
    exact countSub_one (by decide) hcc hcb

/-- C6 witness: the round trip at a concrete document and converted HTML. -/
theorem C6_witness :
    extractMermaidBlocks (c6a ++ (mermaidOpen ++ (c6body ++ (fenceT ++ c6b)))) =
        (c6a ++ (blank2 ++ (mermaidPlaceholderPre ++ natText 0) ++ blank2) ++ c6b, [c6body])
    ∧ restoreMermaidBlocks (c6c ++ mermaidPara 0 ++ c6d) [c6body] =
        c6c ++ mermaidShell c6body ++ c6d
    ∧ countSub mermaidCodeTag (c6c ++ mermaidShell c6body ++ c6d) = 1 := by
  have h := C6_mermaid_round_trip c6a c6body c6b c6c c6d (by decide) (by decide) (by decide)
    (by decide) (by decide) (by decide) (by decide)
  exact ⟨h.1, h.2.1, h.2.2⟩

/-- C7: a fenced block with an unrecognized language never raises — the bare
`except:` makes `highlight_match` total; the embedded lexer oracle returning
`none` models the exception — and the output is the unhighlighted fallback
shell, which contains `language-<lang>` and the literal, un-HTML-escaped
code text inside the pre/code shell. -/
theorem C7_unknown_language_fallback (hl : Text → Text → Option Text) (lang code : Text)
    (hw : ∀ ch ∈ lang, isWordChar ch = true) (hne : lang ≠ [])
    (hcode : ∀ i < code.length, isPre fenceT ((code ++ fenceT).drop i) = false)
    (hfail : hl lang code = none) :
    highlightCodeBlocks hl (fenceT ++ (lang ++ '\n' :: (code ++ fenceT))) =
        highlightFallback lang code
    ∧ highlightFallback lang code =
        (c7shellPre ++ langClassPre) ++ lang ++ (c7shellMid ++ code ++ c7shellSuf) := by
  constructor
  · have hcode2 : ∀ i < code.length, isPre fenceT ((code ++ (fenceT ++ [])).drop i) = false := by
      simpa using hcode
    have hm := codeStep_matches hl lang code [] hw hne hcode2
    have hm2 : codeStep hl () (fenceT ++ (lang ++ '\n' :: (code ++ fenceT))) =
        some (highlightMatch hl (some lang) code, (), []) := by
      simpa using hm
    unfold highlightCodeBlocks
    rw [scanText_head_match (codeStep_consuming hl) hm2]
    simp [highlightMatch, hfail]
  · have hsplit :
        ("<div class=\"highlighter-rouge\"><div class=\"highlight\"><pre><code class=\"language-".data : Text)
          = c7shellPre ++ langClassPre := by decide
    have hmid : ("\">".data : Text) = c7shellMid := rfl
    have hsuf : ("</code></pre></div></div>".data : Text) = c7shellSuf := rfl
    unfold highlightFallback
    rw [hsplit, hmid, hsuf]
    simp [List.append_assoc]

/-- C7 witness: the fallback at a concrete unrecognized language tag. -/
theorem C7_witness :
    highlightCodeBlocks noneHl (fenceT ++ (langFoobar ++ '\n' :: (c7code ++ fenceT))) =
        highlightFallback langFoobar c7code
    ∧ highlightFallback langFoobar c7code =
        (c7shellPre ++ langClassPre) ++ langFoobar ++ (c7shellMid ++ c7code ++ c7shellSuf) := by
  have h := C7_unknown_language_fallback noneHl langFoobar c7code (by decide) (by decide)
    (by decide) rfl
  exact ⟨h.1, h.2⟩

/-- C8: on text with no include markers, no example shortcodes and no
diagram blocks, the Placeholder Protector's three extraction steps return
the text unchanged with an empty directive mapping and no stored blocks, and
the restoration steps (mermaid restoration and directive expansion) return
it unchanged as well. -/
theorem C8_no_constructs_identity (content rP rA : Text) (tC : PageData → Text)
    (page0 : PageData)
    (i1 : containsSub markerPostsTrim content = false)
    (i2 : containsSub markerPosts content = false)
    (i3 : containsSub markerCategoryTrim content = false)
    (i4 : containsSub markerCategory content = false)
    (i5 : containsSub markerArchiveTrim content = false)
    (i6 : containsSub markerArchive content = false)
    (hEx : ∀ i < content.length, exampleStep [] (content.drop i) = none)
    (hMer : ∀ i < content.length, mermaidStep [] (content.drop i) = none) :
    protectorExtract content = (content, [], [])
    ∧ restoreMermaidBlocks content [] = content
    ∧ (processIncludeDirectives rP rA tC
        { page0 with content := content, includeDirectives := [] }).1 = content := by
  have hInc : extractIncludeDirectives content = (content, []) := by
    simp [extractIncludeDirectives, i1, i2, i3, i4, i5, i6]
  have hExq : extractExampleShortcodes content [] = (content, []) := by
    unfold extractExampleShortcodes scanText
    rw [scanFuel_none content.length content hEx]
  have hMerq : extractMermaidBlocks content = (content, []) := by
    unfold extractMermaidBlocks scanText
    rw [scanFuel_none content.length content hMer]
  refine ⟨?_, rfl, ?_⟩
  · simp [protectorExtract, hInc, hExq, hMerq]
  · simp [processIncludeDirectives]

/-- C8 witness: identity of protect-then-restore at a concrete text. -/
theorem C8_witness :
    protectorExtract c8content = (c8content, [], [])
    ∧ restoreMermaidBlocks c8content [] = c8content
    ∧ (processIncludeDirectives c2rendered [] emptyTmpl
        { pageFixture [] [] none [] with content := c8content, includeDirectives := [] }).1 =
      c8content := by
  have h := C8_no_constructs_identity c8content c2rendered [] emptyTmpl
    (pageFixture [] [] none []) (by decide) (by decide) (by decide) (by decide)
    (by decide) (by decide) (by decide) (by decide)
  exact ⟨h.1, h.2.1, h.2.2⟩

/-- C9 counterexample: a key present in the input with a non-dict value,
where the defaults hold a nonempty dict at the same key, makes
`apply_defaults` raise (`AttributeError` from `setdefault` on the non-dict
node) instead of keeping the value, refuting the claim "for every pair of
dictionaries". -/
theorem C9_counterexample :
    applyDefaults (some mergeBadData) mergeBadDefaults = .error .attrError := by
  rfl

/-- C9 (amended): whenever `apply_defaults` returns (the input is
structurally compatible with the defaults — no non-dict input value meets a
nonempty defaults dict), it never overwrites a value already present at any
nesting depth (every non-dict leaf of the input survives at its path), keys
present in the input stay present, and a top-level non-dict default fills in
exactly the missing keys; the input itself is never mutated (the source
merges into a deep copy, which the functional embedding reflects). -/
theorem C9_amended_no_overwrite (data defaults t2 : Entries)
    (h : applyDefaults (some data) defaults = .ok t2) :
    PreservesLeaves data t2 ∧ PreservesKeys data t2 ∧ FillsAtoms data defaults t2 := by
  have h2 : mergeEntries data defaults = .ok t2 := by simpa [applyDefaults] using h
  exact mergeEntries_preserves data defaults t2 h2

/-- C9 witness: the amended theorem at a concrete merge. -/
theorem C9_witness :
    getPath (.dict mergeResultFx) [keyX] = some (.atom 7)
    ∧ lookupE mergeResultFx keyY = some (.atom 1) := by
  have h := C9_amended_no_overwrite mergeDataFx mergeDefaultsFx mergeResultFx (by rfl)
  exact ⟨h.1 [keyX] 7 (by rfl), h.2.2 keyY 1 (by rfl) (by rfl)⟩

/-- C10 counterexample: a page with unset section and root url `/` gets the
empty string written back as its section — the claim's "always non-empty"
fails at the root url. -/
theorem C10_counterexample :
    ((renderCategoryInclude emptyTmpl (pageFixture [] rootUrl none [])).2).sectionName =
      some [] := by
  rfl

/-- C10 (amended): expanding a category directive for a page whose section
is unset (absent or empty) writes the last segment of the page's normalized
url back into the page record — non-empty whenever the normalized url is
non-empty, the empty string for the root url — and changes no other field of
the record. -/
theorem C10_amended_section_writeback (tmpl : PageData → Text) (page : PageData)
    (h : page.sectionName = none ∨ page.sectionName = some []) :
    ((renderCategoryInclude tmpl page).2).sectionName = some (lastUrlSegment page.url)
    ∧ (normalizeUrlPath page.url ≠ [] → lastUrlSegment page.url ≠ [])
    ∧ ((renderCategoryInclude tmpl page).2).content = page.content
    ∧ ((renderCategoryInclude tmpl page).2).title = page.title
    ∧ ((renderCategoryInclude tmpl page).2).date = page.date
    ∧ ((renderCategoryInclude tmpl page).2).url = page.url
    ∧ ((renderCategoryInclude tmpl page).2).filePath = page.filePath
    ∧ ((renderCategoryInclude tmpl page).2).comments = page.comments
    ∧ ((renderCategoryInclude tmpl page).2).mermaid = page.mermaid
    ∧ ((renderCategoryInclude tmpl page).2).codepen = page.codepen
    ∧ ((renderCategoryInclude tmpl page).2).toc = page.toc
    ∧ ((renderCategoryInclude tmpl page).2).banner = page.banner
    ∧ ((renderCategoryInclude tmpl page).2).sidebar = page.sidebar
    ∧ ((renderCategoryInclude tmpl page).2).collection = page.collection
    ∧ ((renderCategoryInclude tmpl page).2).includeDirectives = page.includeDirectives := by
  have hsec : (page.sectionName.getD []).isEmpty = true := by
    rcases h with h | h <;> simp [h]
  refine ⟨by simp [renderCategoryInclude, hsec], fun hn => lastUrlSegment_ne_nil hn, ?_⟩
  simp [renderCategoryInclude]

/-- C10 witness: the amended theorem at a concrete page. -/
theorem C10_witness :
    ((renderCategoryInclude emptyTmpl (pageFixture [] aboutUrl none [])).2).sectionName =
        some aboutSeg
    ∧ lastUrlSegment aboutUrl ≠ [] := by
  have h := C10_amended_section_writeback emptyTmpl (pageFixture [] aboutUrl none [])
    (Or.inl rfl)
  refine ⟨?_, h.2.1 (by decide)⟩
  rw [h.1]
  decide

end CodeCraft
